import Mathlib

/-!
Verification of the StepMania chart-generation core
(`stepmania_sm_generator.py`): a shallow embedding over exact rationals of
the music-start detector, the multi-method BPM estimator, the accent-based
downbeat heuristic and the per-difficulty step-chart generator, with
theorems checking the documented properties of each stage.

Modelling conventions:
* Machine floats become exact rationals `ℚ`; `round` is Python's
  round-half-to-even, `int` truncates toward zero.
* The seeded `random.Random` instance becomes an explicit stream
  `u : ℕ → ℚ` of uniform draws in `[0,1)` together with a counter that each
  primitive (`random`, `randint`, `choice`) advances by one; the stream is a
  pure function of the seed, which is what makes generation reproducible.
* Feature-extraction lookups (`get_dominant_band`, `get_rms_at`) and the
  raw librosa/madmom method outputs are inputs of the embedded functions:
  they are computed by external DSP libraries upstream of the logic under
  verification.
* Paths on which Python raises (`ZeroDivisionError` on a zero BPM,
  subdivision or density cap, invalid slice step) return `none`.
-/

set_option allowUnsafeReducibility true
set_option maxRecDepth 100000

attribute [local semireducible] Rat.add Rat.mul Rat.sub Rat.inv Rat.ofScientific

namespace SMGen

/-- Python's built-in `round` to an integer: round-half-to-even
(banker's rounding), exact on rationals. -/
def pythonRound (q : ℚ) : ℤ :=
  if q - (Int.floor q : ℚ) < 1/2 then Int.floor q
  else if 1/2 < q - (Int.floor q : ℚ) then Int.floor q + 1
  else if Int.floor q % 2 = 0 then Int.floor q else Int.floor q + 1

/-- Python's `round(x, 2)`. -/
def round2 (q : ℚ) : ℚ := (pythonRound (q * 100) : ℚ) / 100

/-- Python's `int()` truncation toward zero. -/
def pyInt (q : ℚ) : ℤ := if 0 ≤ q then Int.floor q else Int.ceil q

/-- Python float modulo `x % m`: the result has the divisor's sign, so for
`m > 0` it lies in `[0, m)`. -/
def fmod (x m : ℚ) : ℚ := x - m * (Int.floor (x / m) : ℚ)

/-- Maximum of a nonempty list, as `np.max` on a nonempty array. -/
def listMax (l : List ℚ) : ℚ := l.foldl max (l.headD 0)

/-- Arithmetic mean, as `np.mean` (only applied to nonempty lists). -/
def mean (l : List ℚ) : ℚ := l.sum / (l.length : ℚ)

/-! ### Music-start detection (`AudioAnalyzer.detect_music_start`) -/

/-- Time of the i-th RMS frame: `librosa.frames_to_time` with hop 512 at the
fixed 22050 Hz sample rate. -/
def rms_frame_time (i : ℕ) : ℚ := (i : ℚ) * 512 / 22050

/-- The music-start detector: earliest RMS frame strictly above 5% of the
peak RMS, minus a 50 ms safety margin, clamped at zero; 0 when no frame
exceeds the threshold. The RMS envelope of any decoded waveform is
nonempty (`np.max` would raise on an empty array). -/
def detect_music_start (rms : List ℚ) : ℚ :=
  let peak := listMax rms
  let threshold := peak * (5/100)
  let ms : ℚ :=
    match rms.findIdx? (fun v => decide (threshold < v)) with
    | some i => rms_frame_time i
    | none => 0
  max 0 (ms - 5/100)

/-! ### Multi-method BPM estimation (`_estimate_bpm_multimethod`)

The four raw method outputs `t1, t2, t4` and the tempogram candidate list
`t3` come from librosa; the strongest-quartile onset times used for scoring
are likewise an upstream input. -/

/-- Octave multipliers applied to every raw tempo candidate. -/
def octaveMults : List ℚ := [1/2, 1, 2, 2/3, 3/2, 4/3, 3/4]

/-- Raw candidate list: methods 1, 2, 4 plus the tempogram peaks filtered to
the open interval (40, 240). -/
def raw_candidates (t1 t2 t4 : ℚ) (t3 : List ℚ) : List ℚ :=
  [t1, t2, t4] ++ t3.filter (fun t => decide (40 < t) && decide (t < 240))

/-- Octave variants of the raw candidates, filtered to [60, 200] and rounded
to 2 decimals. Here the Python `set` is modelled as an insertion-ordered
duplicate-free list: that fixes the set's contents exactly and suffices for
every order-independent fact (membership, the [60, 200] range). CPython
iterates a float set in hash-table slot order; the order-faithful
enumeration is `octave_candidates_py` below. -/
def octave_candidates (raw : List ℚ) : List ℚ :=
  raw.foldl (fun acc t =>
    octaveMults.foldl (fun acc m =>
      let v := t * m
      if 60 ≤ v ∧ v ≤ 200 then
        let r := round2 v
        if r ∈ acc then acc else acc ++ [r]
      else acc) acc) []

/-- Candidate list handed to the scorer, with the `{round(t1, 2)}` fallback
when every octave variant fell outside [60, 200]. -/
def mm_candidates (t1 t2 t4 : ℚ) (t3 : List ℚ) : List ℚ :=
  let c := octave_candidates (raw_candidates t1 t2 t4 t3)
  if c = [] then [round2 t1] else c

/-- Per-onset alignment bonus of one candidate: distance of the onset's
phase to the nearest beat-grid line, capped at zero. -/
def onset_align (c ot : ℚ) : ℚ :=
  let phase := fmod (ot / (60 / c)) 1
  let dist := min phase (1 - phase)
  max 0 (1/2 - dist)

/-- Beat-grid alignment score of one BPM candidate: per-onset phase bonus,
normalised by the onset count, with the ×1.10 bonus on [80, 130]. -/
def cand_score (onsets : List ℚ) (c : ℚ) : ℚ :=
  ((onsets.map (onset_align c)).sum / ((max onsets.length 1 : ℕ) : ℚ)) *
    (if 80 ≤ c ∧ c ≤ 130 then 11/10 else 1)

/-- The selection fold: strict improvement over the running best, started at
score −1 with the method-1 estimate as placeholder. -/
def select_best (onsets : List ℚ) : List ℚ → ℚ × ℚ → ℚ × ℚ
  | [], acc => acc
  | c :: rest, acc =>
      let s := cand_score onsets c
      select_best onsets rest (if acc.1 < s then (s, c) else acc)

/-- The whole multi-method estimator. -/
def estimate_bpm_multimethod (t1 t2 t4 : ℚ) (t3 onsets : List ℚ) : ℚ :=
  (select_best onsets (mm_candidates t1 t2 t4 t3) (-1, t1)).2

/-! #### CPython set iteration order

`for bpm_c in candidates` iterates a CPython `set` of floats in hash-table
slot order, not insertion order, and the estimator's tie-break depends on
that order. The model below follows `Objects/setobject.c`: open addressing
with `LINEAR_PROBES = 9` and `PERTURB_SHIFT = 5`, an 8-slot initial table,
growth to the smallest power of two above `used * 4` once
`fill * 5 ≥ mask * 3`, a resize that re-inserts the surviving entries in
slot order with `set_insert_clean`, and iteration in increasing slot order.
Hashes follow Python's documented numeric hash, which CPython's float hash
implements exactly on every finite float: for `p/q` in lowest terms the
hash is `|p| * q^(P-2) mod P` with `P = 2^61 - 1`, carrying the sign of `p`
and mapping `-1` to `-2`. Since this embedding idealises floats as exact
rationals throughout, a two-decimal candidate with no exact binary
representation can hash into a different slot than the true float would;
order-sensitive conclusions are therefore drawn only at inputs whose
candidates are dyadic (integers and halves), where the model's enumeration
coincides with CPython's. Table sizes are powers of two, so `x & mask` is
`x % (mask + 1)`; the program never discards set elements, so no dummy
entries arise, and the probe loops are fuelled with enough rounds (perturb
decay plus one full cycle of the `i ↦ 5·i + 1` recurrence) to reach every
slot of a table that is never full. -/

/-- Fuelled binary modular exponentiation. -/
def powMod : ℕ → ℕ → ℕ → ℕ → ℕ
  | 0, _, _, m => 1 % m
  | fuel + 1, b, e, m =>
      if e = 0 then 1 % m
      else
        let r := powMod fuel (b * b % m) (e / 2) m
        if e % 2 = 1 then r * b % m else r

/-- The modulus of Python's numeric hash. -/
def pyHashModulus : ℕ := 2 ^ 61 - 1

/-- Python's hash of a rational number (on dyadic rationals this is exactly
CPython's float hash): `|p| * q⁻¹ mod (2^61 - 1)` with the sign of `p`, and
`-1` replaced by `-2`. -/
def pyHashRat (x : ℚ) : ℤ :=
  let m := x.num.natAbs % pyHashModulus *
      powMod 64 (x.den % pyHashModulus) (pyHashModulus - 2) pyHashModulus %
      pyHashModulus
  let h : ℤ := if x.num < 0 then -(m : ℤ) else (m : ℤ)
  if h = -1 then -2 else h

/-- The hash as the nonnegative machine word the probe sequence uses
(`(size_t)hash`). -/
def pyHashIdx (x : ℚ) : ℕ := (pyHashRat x % (2 ^ 64 : ℤ)).toNat

/-- A CPython set of rationals: the slot table (its length a power of two),
the mask, and the number of stored entries. -/
structure PySet where
  table : List (Option ℚ)
  mask : ℕ
  used : ℕ
deriving Repr

/-- A fresh set: 8 empty slots. -/
def PySet.empty : PySet := ⟨List.replicate 8 none, 7, 0⟩

/-- The slot group scanned in one probing round: the home slot plus the 9
linear probes when they fit below the mask. -/
def pySlotGroup (i mask : ℕ) : List ℕ :=
  if i + 9 ≤ mask then (List.range 10).map (fun j => i + j) else [i]

/-- Scan a slot group during `set_add_entry`: first empty slot
(`some (true, j)`), or an equal key already present (`some (false, j)`),
or every slot of the group holds another key (`none`). -/
def scanGroup (table : List (Option ℚ)) (x : ℚ) : List ℕ → Option (Bool × ℕ)
  | [] => none
  | j :: rest =>
      match table.getD j none with
      | none => some (true, j)
      | some y => if y = x then some (false, j) else scanGroup table x rest

/-- Scan a slot group during `set_insert_clean`: the first empty slot. -/
def scanGroupEmpty (table : List (Option ℚ)) : List ℕ → Option ℕ
  | [] => none
  | j :: rest =>
      match table.getD j none with
      | none => some j
      | some _ => scanGroupEmpty table rest

/-- The probing loop of `set_add_entry`. -/
def probe_add (table : List (Option ℚ)) (mask : ℕ) (x : ℚ) :
    ℕ → ℕ → ℕ → Option (Bool × ℕ)
  | 0, _, _ => none
  | fuel + 1, i, perturb =>
      match scanGroup table x (pySlotGroup i mask) with
      | some r => some r
      | none =>
          probe_add table mask x fuel
            ((i * 5 + 1 + perturb / 32) % (mask + 1)) (perturb / 32)

/-- The probing loop of `set_insert_clean`. -/
def probe_clean (table : List (Option ℚ)) (mask : ℕ) :
    ℕ → ℕ → ℕ → Option ℕ
  | 0, _, _ => none
  | fuel + 1, i, perturb =>
      match scanGroupEmpty table (pySlotGroup i mask) with
      | some j => some j
      | none =>
          probe_clean table mask fuel
            ((i * 5 + 1 + perturb / 32) % (mask + 1)) (perturb / 32)

/-- `set_insert_clean`: place a key into a table that cannot already hold
it (only used while resizing). -/
def set_insert_clean (table : List (Option ℚ)) (mask : ℕ) (x : ℚ) :
    List (Option ℚ) :=
  let h := pyHashIdx x
  match probe_clean table mask (mask + 14) (h % (mask + 1)) h with
  | some j => table.set j (some x)
  | none => table

/-- Smallest power-of-two table size strictly above `minused`, from 8. -/
def grow_size (minused : ℕ) : ℕ → ℕ → ℕ
  | 0, s => s
  | fuel + 1, s => if s ≤ minused then grow_size minused fuel (s * 2) else s

/-- Re-insert the entries of an old table into `acc` in slot order. -/
def set_rebuild (mask : ℕ) (old acc : List (Option ℚ)) : List (Option ℚ) :=
  old.foldl (fun t o =>
    match o with
    | none => t
    | some x => set_insert_clean t mask x) acc

/-- `set_table_resize`: allocate the grown table and re-insert. -/
def set_table_resize (old : List (Option ℚ)) (used minused : ℕ) : PySet :=
  let ns := grow_size minused 64 8
  ⟨set_rebuild (ns - 1) old (List.replicate ns none), ns - 1, used⟩

/-- `set_add_key`: probe, insert into the first free slot of the probe
sequence, and grow the table once `fill * 5 ≥ mask * 3`. -/
def pySetAdd (s : PySet) (x : ℚ) : PySet :=
  let h := pyHashIdx x
  match probe_add s.table s.mask x (s.mask + 14) (h % (s.mask + 1)) h with
  | some (true, j) =>
      let t := s.table.set j (some x)
      let fill := s.used + 1
      if fill * 5 < s.mask * 3 then ⟨t, s.mask, fill⟩
      else set_table_resize t fill (if 50000 < fill then fill * 2 else fill * 4)
  | some (false, _) => s
  | none => s

/-- Iteration order of a CPython set: increasing slot order. -/
def PySet.toList (s : PySet) : List ℚ := s.table.filterMap id

/-- Octave variants of the raw candidates as the estimator's
`for bpm_c in candidates` loop actually enumerates them: built by the
source's insertion sequence, read back in CPython set iteration order. -/
def octave_candidates_py (raw : List ℚ) : List ℚ :=
  (raw.foldl (fun s t =>
    octaveMults.foldl (fun s m =>
      let v := t * m
      if 60 ≤ v ∧ v ≤ 200 then pySetAdd s (round2 v) else s) s) PySet.empty).toList

/-- Candidate enumeration handed to the scorer, with the `{round(t1, 2)}`
fallback, in CPython set iteration order. -/
def mm_candidates_py (t1 t2 t4 : ℚ) (t3 : List ℚ) : List ℚ :=
  let c := octave_candidates_py (raw_candidates t1 t2 t4 t3)
  if c = [] then [round2 t1] else c

/-- The multi-method estimator over the order-faithful enumeration. -/
def estimate_bpm_multimethod_py (t1 t2 t4 : ℚ) (t3 onsets : List ℚ) : ℚ :=
  (select_best onsets (mm_candidates_py t1 t2 t4 t3) (-1, t1)).2

/-- Snap a BPM to the nearest 0.5: `round(bpm * 2) / 2`. -/
def snap_half (b : ℚ) : ℚ := (pythonRound (b * 2) : ℚ) / 2

/-- Final BPM of the librosa backend (`_detect_with_librosa`): a positive
manual override short-circuits the estimator; the result is snapped. -/
def final_bpm_librosa (override : Option ℚ) (t1 t2 t4 : ℚ) (t3 onsets : List ℚ) : ℚ :=
  let bpm := match override with
    | some b => if 0 < b then b else estimate_bpm_multimethod t1 t2 t4 t3 onsets
    | none => estimate_bpm_multimethod t1 t2 t4 t3 onsets
  snap_half bpm

/-- Final BPM of the madmom backend (`_detect_with_madmom`): override, else
the first madmom tempo estimate, else the librosa multimethod fallback;
snapped to 0.5 in every case. -/
def final_bpm_madmom (override : Option ℚ) (tempi : List ℚ) (t1 t2 t4 : ℚ)
    (t3 onsets : List ℚ) : ℚ :=
  let est := match tempi with
    | t :: _ => t
    | [] => estimate_bpm_multimethod t1 t2 t4 t3 onsets
  let bpm := match override with
    | some b => if 0 < b then b else est
    | none => est
  snap_half bpm

/-! ### Downbeat detection (`_detect_downbeat_from_beat_strengths`)

`strengths` is the onset-strength envelope sampled at the beat frames,
`bassRaw` the low-band STFT energy sampled at the beat frames, and `rmsAt`
the normalised RMS lookup — all produced by the feature extractor. -/

/-- Candidate downbeat indices for a phase: `np.arange(phase, len, 4)`. -/
def db_indices (len phase : ℕ) : List ℕ :=
  (List.range len).filter (fun i => decide (phase ≤ i) && decide ((i - phase) % 4 = 0))

/-- The complementary indices, `(i - phase) % 4 ≠ 0` over Python integers. -/
def other_indices (len phase : ℕ) : List ℕ :=
  (List.range len).filter (fun i => decide (((i : ℤ) - (phase : ℤ)) % 4 ≠ 0))

/-- Normalised bass energy at the beats (divide by the maximum when it is
positive, else by 1). -/
def bass_normalized (bassRaw : List ℚ) : List ℚ :=
  let m := listMax bassRaw
  let bassMax := if 0 < m then m else 1
  bassRaw.map (fun b => b / bassMax)

/-- Combined accent score of one phase:
`strength_quotient * (1 + rms) * (1 + bass)`, ×1.05 for phase 0. -/
def phase_score (beat_times strengths bassNorm : List ℚ) (rmsAt : ℚ → ℚ)
    (phase : ℕ) : ℚ :=
  let len := strengths.length
  let dbIdx := db_indices len phase
  let otherIdx := other_indices len phase
  let dbStr := dbIdx.map (fun i => strengths.getD i 0)
  let otherStr := if otherIdx = [] then [1] else otherIdx.map (fun i => strengths.getD i 0)
  let accent := mean dbStr / (mean otherStr + 1/100000000)
  let dbTimes := dbIdx.map (fun i => beat_times.getD i 0)
  let rmsScore := mean (dbTimes.map rmsAt)
  let bassScore := mean (dbIdx.map (fun i => bassNorm.getD i 0))
  (accent * (1 + rmsScore) * (1 + bassScore)) * (if phase = 0 then 21/20 else 1)

/-- The phase-selection fold: phases with no candidate indices are skipped
(the `continue`), strict improvement over a best score started at −1. -/
def best_phase_fold (beat_times strengths bassNorm : List ℚ) (rmsAt : ℚ → ℚ) :
    List ℕ → ℚ × ℕ → ℚ × ℕ
  | [], acc => acc
  | p :: rest, acc =>
      if db_indices strengths.length p = [] then
        best_phase_fold beat_times strengths bassNorm rmsAt rest acc
      else
        let s := phase_score beat_times strengths bassNorm rmsAt p
        best_phase_fold beat_times strengths bassNorm rmsAt rest
          (if acc.1 < s then (s, p) else acc)

/-- The winning phase among 0, 1, 2, 3. -/
def best_phase (beat_times strengths bassNorm : List ℚ) (rmsAt : ℚ → ℚ) : ℕ :=
  (best_phase_fold beat_times strengths bassNorm rmsAt [0, 1, 2, 3] (-1, 0)).2

/-- One bounded backward walk: the Python `while` loop subtracts one whole
measure as long as the aligned position a measure earlier stays within the
tolerance window. -/
def walk_back_aux (md lowLimit : ℚ) : ℕ → ℚ → ℚ
  | 0, x => x
  | fuel + 1, x =>
      if lowLimit ≤ x - md then walk_back_aux md lowLimit fuel (x - md) else x

/-- Backward walk by whole measures. For `md > 0` the fuel strictly exceeds
the number of iterations the Python loop performs, so the two agree; for
`md ≤ 0` (only reachable from a nonpositive BPM) the Python loop would
never terminate when its guard holds. -/
def walk_back (x0 md lowLimit : ℚ) : ℚ :=
  if 0 < md then walk_back_aux md lowLimit ((Int.ceil ((x0 - lowLimit) / md)).toNat + 1) x0
  else x0

/-- The accent-analysis downbeat detector: default to the first beat when
fewer than 8 beats exist, otherwise pick the best of the 4 phases and walk
the chosen beat backward by whole measures. -/
def detect_downbeat_from_beat_strengths (beat_times strengths bassRaw : List ℚ)
    (rmsAt : ℚ → ℚ) (bpm music_start : ℚ) : ℚ :=
  if beat_times.length < 8 then beat_times.headD 0
  else
    let bassNorm := bass_normalized bassRaw
    let bp := best_phase beat_times strengths bassNorm rmsAt
    let x0 := beat_times.getD bp 0
    let beat_period := 60 / bpm
    let md := 4 * beat_period
    walk_back x0 md (music_start - beat_period * (1/4))

/-! ### Step-chart generation (`StepChartGenerator`) -/

/-- One row of a step chart: 4 lanes, 0 = empty, 1 = tap. -/
abbrev Row := List ℕ

def zerosRow : Row := [0, 0, 0, 0]

/-- The `any(v > 0 for v in row)` test. -/
def rowActive (r : Row) : Bool := r.any (fun v => decide (0 < v))

/-- Number of active lanes of a row. -/
def countActive (r : Row) : ℕ := r.countP (fun v => decide (0 < v))

/-- The indices of the active lanes, `[i for i in range(4) if row[i]]`. -/
def activeIdx (r : Row) : List ℕ :=
  (List.range 4).filter (fun i => decide (r.getD i 0 ≠ 0))

def LEFT_FOOT : List ℕ := [0, 1]
def RIGHT_FOOT : List ℕ := [2, 3]

/-- One difficulty configuration (the dicts of `StepChartGenerator.CONFIGS`). -/
structure Config where
  level : ℕ
  subdiv : ℕ
  use_beats_only : Bool
  beat_skip : ℕ
  onset_thresh : ℚ
  jump_prob : ℚ
  max_nps : ℚ
  jack_ok : Bool
  alt_pref : Bool
deriving DecidableEq, Repr

inductive DiffName
  | Beginner | Easy | Medium | Hard | Challenge
deriving DecidableEq, Repr

/-- The five canonical difficulty presets. -/
def CONFIGS : DiffName → Config
  | .Beginner  => ⟨1, 4, true, 2, 95/100, 0, 3/2, false, true⟩
  | .Easy      => ⟨3, 4, true, 1, 75/100, 3/100, 3, false, true⟩
  | .Medium    => ⟨6, 8, false, 1, 40/100, 8/100, 5, false, false⟩
  | .Hard      => ⟨8, 16, false, 1, 25/100, 12/100, 9, true, false⟩
  | .Challenge => ⟨10, 16, false, 1, 10/100, 18/100, 14, true, false⟩

/-- Audio-analysis results consumed by the generator. The feature lookups
`get_dominant_band` and `get_rms_at` are abstracted as functions of time;
`onsets` zips onset times with their normalised strengths. -/
structure Analyzer where
  duration : ℚ
  music_start : ℚ
  bpm : ℚ
  first_downbeat : ℚ
  beat_times : List ℚ
  onsets : List (ℚ × ℚ)
  dominant_band : ℚ → ℕ
  rms_at : ℚ → ℚ

/-- The per-difficulty result of `generate_chart`. -/
structure Chart where
  difficulty : DiffName
  level : ℕ
  subdiv : ℕ
  measures : List (List Row)
  note_count : ℕ
deriving DecidableEq, Repr

/-- One uniform draw in `[0,1)` from the seeded stream. -/
def randUniform (u : ℕ → ℚ) (n : ℕ) : ℚ × ℕ := (u n, n + 1)

/-- The `rng.randint(0, 3)` primitive, derived from one uniform draw. -/
def randint03 (u : ℕ → ℚ) (n : ℕ) : ℕ × ℕ :=
  ((Int.floor (u n * 4)).toNat, n + 1)

/-- The `rng.choice(lst)` primitive, derived from one uniform draw. -/
def randChoice {α : Type} (u : ℕ → ℚ) (n : ℕ) (l : List α) (d : α) : α × ℕ :=
  (l.getD (Int.floor (u n * (l.length : ℚ))).toNat d, n + 1)

/-- The bounded resampling loop that avoids jacks: up to 12 retries while
the arrow equals the previous one. -/
def jack_avoid (u : ℕ → ℚ) : ℕ → ℕ → ℕ → ℕ → ℕ × ℕ
  | 0, n, arrow, _ => (arrow, n)
  | fuel + 1, n, arrow, lastPrev =>
      if arrow ≠ lastPrev then (arrow, n)
      else
        let p := randint03 u n
        jack_avoid u fuel p.2 p.1 lastPrev

/-- Arrow assignment for one eligible row (`_pick_arrow`): spectral default,
30% random variety, foot alternation, jack avoidance, optional jump.
Returns the row, the chosen primary arrow, and the advanced rng counter.
With `jump_prob = 0` Python's truthiness test skips the jump draw. -/
def pick_arrow (az : Analyzer) (u : ℕ → ℚ) (n : ℕ) (t : ℚ) (prev : List ℕ)
    (cfg : Config) : Row × ℕ × ℕ :=
  let arrow0 := az.dominant_band t
  let d0 := randUniform u n
  let a1 := if d0.1 < 30/100 then randint03 u d0.2 else (arrow0, d0.2)
  let a2 :=
    if cfg.alt_pref ∧ prev ≠ [] then
      randChoice u a1.2 (if prev.getLastD 0 ∈ LEFT_FOOT then RIGHT_FOOT else LEFT_FOOT) 0
    else a1
  let a3 :=
    if ¬cfg.jack_ok ∧ prev ≠ [] then jack_avoid u 12 a2.2 a2.1 (prev.getLastD 0)
    else a2
  let row := zerosRow.set a3.1 1
  if cfg.jump_prob ≠ 0 then
    let d1 := randUniform u a3.2
    if d1.1 < cfg.jump_prob then
      let alt := (List.range 4).filter (fun i => decide (i ≠ a3.1))
      let lane := randChoice u d1.2 alt 0
      (row.set lane.1 1, a3.1, lane.2)
    else (row, a3.1, d1.2)
  else (row, a3.1, a3.2)

/-! #### Post-processing rules (`_postprocess`) -/

/-- Rule 1, silence muting: clear any active row whose RMS energy at the
row's absolute time is below 0.08. -/
def rule1 (az : Analyzer) (spr offset : ℚ) (subdiv : ℕ)
    (measures : List (List Row)) : List (List Row) :=
  measures.enum.map (fun me =>
    me.2.enum.map (fun re =>
      if rowActive re.2 ∧
          az.rms_at (offset + ((me.1 * subdiv + re.1 : ℕ) : ℚ) * spr) < 8/100
      then zerosRow else re.2))

/-- Rule 2 on one row: rewrite an L→R or R→L crossover to a middle lane and
track the previous single arrow. -/
def rule2_row (st : ℤ) (row : Row) : Row × ℤ :=
  let arrows := activeIdx row
  if arrows.length = 1 then
    let a := arrows.headD 0
    let row' := if st = 0 ∧ a = 3 then [0, 0, 1, 0]
                else if st = 3 ∧ a = 0 then [0, 1, 0, 0]
                else row
    let st' := if rowActive row' then ((activeIdx row').headD 0 : ℤ) else st
    (row', st')
  else (row, st)

def rule2_meas : ℤ → List Row → List Row × ℤ
  | st, [] => ([], st)
  | st, row :: rest =>
      let p := rule2_row st row
      let q := rule2_meas p.2 rest
      (p.1 :: q.1, q.2)

def rule2_go : ℤ → List (List Row) → List (List Row)
  | _, [] => []
  | st, meas :: rest =>
      let p := rule2_meas st meas
      p.1 :: rule2_go p.2 rest

/-- Rule 2, crossover avoidance (applied only when `level ≤ 6`). -/
def rule2 (measures : List (List Row)) : List (List Row) := rule2_go (-1) measures

/-- Rule 3 on one measure: on a strong downbeat (RMS > 0.70) a lone first
note gets, with probability 0.20, an opposite-foot partner lane. The empty
case is unreachable from `generate_chart` (Python indexes `meas[0]`). -/
def rule3_meas (az : Analyzer) (u : ℕ → ℚ) (spr offset : ℚ) (subdiv m n : ℕ) :
    List Row → List Row × ℕ
  | [] => ([], n)
  | row :: rest =>
      if rowActive row ∧ row.sum = 1 then
        let t := offset + ((m * subdiv : ℕ) : ℚ) * spr
        if 70/100 < az.rms_at t then
          let d := randUniform u n
          if d.1 < 20/100 then
            let active := row.indexOf 1
            let partner :=
              if active ∈ LEFT_FOOT then randChoice u d.2 RIGHT_FOOT 0
              else randChoice u d.2 LEFT_FOOT 0
            (row.set partner.1 1 :: rest, partner.2)
          else (row :: rest, d.2)
        else (row :: rest, n)
      else (row :: rest, n)

def rule3_go (az : Analyzer) (u : ℕ → ℚ) (spr offset : ℚ) (subdiv : ℕ) :
    ℕ → List (List Row) → ℕ → List (List Row) × ℕ
  | _, [], n => ([], n)
  | m, meas :: rest, n =>
      let p := rule3_meas az u spr offset subdiv m n meas
      let q := rule3_go az u spr offset subdiv (m + 1) rest p.2
      (p.1 :: q.1, q.2)

/-- Rule 3, emphasis jumps on downbeats (applied only when `level ≥ 5`). -/
def rule3 (az : Analyzer) (u : ℕ → ℚ) (spr offset : ℚ) (subdiv : ℕ)
    (measures : List (List Row)) (n : ℕ) : List (List Row) × ℕ :=
  rule3_go az u spr offset subdiv 0 measures n

/-- The four cyclic lane patterns of `_smooth_run`. -/
def patterns : List (List ℕ) := [[0,1,2,3], [3,2,1,0], [0,2,1,3], [3,1,2,0]]

/-- A row participating in a run: active with exactly one note. -/
def has_note (row : Row) : Bool := rowActive row && decide (row.sum = 1)

/-- Rewrite one maximal run: runs of length ≥ 4 are replaced by a cyclic
pattern chosen by one rng draw; shorter runs are kept as they are. -/
def apply_run (u : ℕ → ℚ) (run : List Row) (n : ℕ) : List Row × ℕ :=
  if 4 ≤ run.length then
    let pat := randChoice u n patterns [0, 1, 2, 3]
    (run.enum.map (fun ir => zerosRow.set (pat.1.getD (ir.1 % 4) 0) 1), pat.2)
  else (run, n)

/-- The run scanner over the flattened rows: accumulate consecutive
single-note rows, flush the buffered run at every break and at the end. -/
def smooth_scan (u : ℕ → ℚ) : List Row → List Row → ℕ → List Row × ℕ
  | [], run, n => apply_run u run n
  | row :: rest, run, n =>
      if has_note row then smooth_scan u rest (run ++ [row]) n
      else
        let p := apply_run u run n
        let q := smooth_scan u rest [] p.2
        (p.1 ++ row :: q.1, q.2)

/-- Regroup a flat row list by the shape of the original measures (the
Python code mutates the rows in place through the flat list). -/
def unflatten_like {α β : Type} : List (List α) → List β → List (List β)
  | [], _ => []
  | ms :: rest, l => l.take ms.length :: unflatten_like rest (l.drop ms.length)

/-- Rule 4, run smoothing (applied only when `level ≥ 8`). -/
def rule4 (u : ℕ → ℚ) (measures : List (List Row)) (n : ℕ) :
    List (List Row) × ℕ :=
  let p := smooth_scan u measures.flatten [] n
  (unflatten_like measures p.1, p.2)

/-- Rule 5 on one row: a jump fewer than 3 grid rows after the last retained
jump is, below level 9, downgraded to one random lane of its active set;
otherwise the jump is retained and becomes the new reference. -/
def rule5_row (level : ℕ) (u : ℕ → ℚ) (gi : ℕ) (last : ℤ) (n : ℕ) (row : Row) :
    Row × ℤ × ℕ :=
  if 2 ≤ row.sum then
    if (gi : ℤ) - last < 3 ∧ level < 9 then
      let keep := randChoice u n (activeIdx row) 0
      (zerosRow.set keep.1 1, last, keep.2)
    else (row, (gi : ℤ), n)
  else (row, last, n)

def rule5_meas (level : ℕ) (u : ℕ → ℚ) (subdiv m : ℕ) :
    ℕ → List Row → ℤ → ℕ → List Row × ℤ × ℕ
  | _, [], last, n => ([], last, n)
  | r, row :: rest, last, n =>
      let p := rule5_row level u (m * subdiv + r) last n row
      let q := rule5_meas level u subdiv m (r + 1) rest p.2.1 p.2.2
      (p.1 :: q.1, q.2)

def rule5_go (level : ℕ) (u : ℕ → ℚ) (subdiv : ℕ) :
    ℕ → List (List Row) → ℤ → ℕ → List (List Row) × ℤ × ℕ
  | _, [], last, n => ([], last, n)
  | m, meas :: rest, last, n =>
      let p := rule5_meas level u subdiv m 0 meas last n
      let q := rule5_go level u subdiv (m + 1) rest p.2.1 p.2.2
      (p.1 :: q.1, q.2)

/-- Rule 5, jump spacing (applied at every level; the level test sits inside
the rule). `last_jump_gi` starts at −999. -/
def rule5 (subdiv level : ℕ) (measures : List (List Row)) (u : ℕ → ℚ) (n : ℕ) :
    List (List Row) × ℤ × ℕ :=
  rule5_go level u subdiv 0 measures (-999) n

/-- The full post-processing pass in source order, with the level gates of
rules 2, 3 and 4. -/
def postprocess (az : Analyzer) (u : ℕ → ℚ) (subdiv : ℕ) (cfg : Config)
    (measures : List (List Row)) (n : ℕ) : List (List Row) × ℕ :=
  let spm := 4 * 60 / az.bpm
  let spr := spm / (subdiv : ℚ)
  let offset := az.first_downbeat
  let ms1 := rule1 az spr offset subdiv measures
  let ms2 := if cfg.level ≤ 6 then rule2 ms1 else ms1
  let p3 := if 5 ≤ cfg.level then rule3 az u spr offset subdiv ms2 n else (ms2, n)
  let p4 := if 8 ≤ cfg.level then rule4 u p3.1 p3.2 else p3
  let p5 := rule5 subdiv cfg.level p4.1 u p4.2
  (p5.1, p5.2.2)

/-! #### Grid construction, density cap and chart assembly (`generate_chart`) -/

/-- Helper for slicing: take the head when the countdown hits 0, then
restart the countdown at `k - 1`. -/
def every_nth_go {α : Type} (k : ℕ) : List α → ℕ → List α
  | [], _ => []
  | x :: xs, 0 => x :: every_nth_go k xs (k - 1)
  | _ :: xs, c + 1 => every_nth_go k xs c

/-- Python slicing `l[::k]` for `k ≥ 1`. -/
def every_nth {α : Type} (k : ℕ) (l : List α) : List α := every_nth_go k l 0

/-- Snap one source time onto the subdivision grid: the row index must be
nonnegative and within 0.45 of the exact fractional position. -/
def grid_row_index (offset spr t : ℚ) : Option ℕ :=
  let q := (t - offset) / spr
  let ri := pythonRound q
  if 0 ≤ ri ∧ |q - (ri : ℚ)| < 45/100 then some ri.toNat else none

/-- The eligible-row set from downsampled beats and strong-enough onsets. -/
def raw_grid (az : Analyzer) (cfg : Config) (spr offset : ℚ) : Finset ℕ :=
  let fromBeats := (every_nth cfg.beat_skip az.beat_times).foldl (fun s bt =>
    if az.music_start ≤ bt ∧ bt ≤ az.duration then
      match grid_row_index offset spr bt with
      | some ri => insert ri s
      | none => s
    else s) ∅
  az.onsets.foldl (fun s o =>
    if cfg.onset_thresh ≤ o.2 ∧ az.music_start ≤ o.1 ∧ o.1 ≤ az.duration then
      match grid_row_index offset spr o.1 with
      | some ri => insert ri s
      | none => s
    else s) fromBeats

/-- The density cap: when the eligible set exceeds
`int(duration * max_nps)`, downsample the sorted indices by even striding.
A zero cap with a nonempty set is Python's `ZeroDivisionError`. -/
def capped_grid (duration maxNps : ℚ) (g : Finset ℕ) : Option (Finset ℕ) :=
  let maxNotes := pyInt (duration * maxNps)
  if maxNotes < (g.card : ℤ) then
    if maxNotes = 0 then none
    else
      let lst := g.sort (· ≤ ·)
      let step : ℚ := (lst.length : ℚ) / (maxNotes : ℚ)
      some ((List.range maxNotes.toNat).foldl
        (fun (s : Finset ℕ) (i : ℕ) => insert (lst.getD (pyInt ((i : ℚ) * step)).toNat 0) s) ∅)
  else some g

/-- Python's `prev[-8:]`. -/
def last8 (l : List ℕ) : List ℕ := l.drop (l.length - 8)

/-- Row construction over the flat grid indices `0 .. n_meas*subdiv - 1`
(the nested measure/row loops in flat order), threading the arrow history
and the rng counter. -/
def build_rows (az : Analyzer) (u : ℕ → ℚ) (cfg : Config) (grid : Finset ℕ)
    (spr offset : ℚ) : List ℕ → List ℕ → ℕ → List Row × ℕ
  | [], _, n => ([], n)
  | gi :: rest, prev, n =>
      let trow := offset + (gi : ℚ) * spr
      if gi ∈ grid ∧ 0 ≤ trow ∧ trow ≤ az.duration then
        let p := pick_arrow az u n trow prev cfg
        let q := build_rows az u cfg grid spr offset rest (last8 (prev ++ [p.2.1])) p.2.2
        (p.1 :: q.1, q.2)
      else
        let q := build_rows az u cfg grid spr offset rest prev n
        (zerosRow :: q.1, q.2)

/-- Helper for regrouping: `acc` is the current partial measure, `rem` the
number of slots left in it. -/
def chunk_go {α : Type} (k : ℕ) : List α → List α → ℕ → List (List α)
  | [], acc, _ => if acc.isEmpty then [] else [acc]
  | x :: xs, acc, rem =>
      if rem ≤ 1 then (acc ++ [x]) :: chunk_go k xs [] k
      else chunk_go k xs (acc ++ [x]) (rem - 1)

/-- Regroup the flat rows into measures of `subdiv` rows each. -/
def chunk_rows {α : Type} (k : ℕ) (l : List α) : List (List α) :=
  if k = 0 then [] else chunk_go k l [] k

/-- Trailing-empty-measure trim on the reversed list (keep at least one). -/
def trim_rev : List (List Row) → List (List Row)
  | [] => []
  | [m] => [m]
  | m :: rest =>
      if m.all (fun r => r.all (fun v => decide (v = 0))) then trim_rev rest
      else m :: rest

def trim_trailing (measures : List (List Row)) : List (List Row) :=
  (trim_rev measures.reverse).reverse

/-- The chart's note count: rows with at least one active lane. -/
def active_row_count (measures : List (List Row)) : ℕ :=
  (measures.map (fun ms => ms.countP rowActive)).sum

/-- `generate_chart` for an explicit configuration: grid construction,
density capping, row-by-row arrow assignment, post-processing and the
trailing trim. `none` models Python's `ZeroDivisionError`/slice errors on a
zero BPM, subdivision, beat skip or density cap. -/
def generate_chart_cfg (az : Analyzer) (u : ℕ → ℚ) (n : ℕ) (cfg : Config)
    (name : DiffName) : Option (Chart × ℕ) :=
  if az.bpm = 0 ∨ cfg.subdiv = 0 ∨ cfg.beat_skip = 0 then none
  else
    let spm := 4 * 60 / az.bpm
    let subdiv := cfg.subdiv
    let spr := spm / (subdiv : ℚ)
    let offset := az.first_downbeat
    let nMeas := (Int.ceil ((az.duration - offset) / spm) + 1).toNat
    match capped_grid az.duration cfg.max_nps (raw_grid az cfg spr offset) with
    | none => none
    | some grid =>
        let built := build_rows az u cfg grid spr offset
          (List.range (nMeas * subdiv)) [] n
        let measures0 := chunk_rows subdiv built.1
        let post := postprocess az u subdiv cfg measures0 built.2
        let measures := trim_trailing post.1
        some (⟨name, cfg.level, subdiv, measures, active_row_count measures⟩, post.2)

/-- `generate_chart` by difficulty name. -/
def generate_chart (az : Analyzer) (u : ℕ → ℚ) (n : ℕ) (name : DiffName) :
    Option (Chart × ℕ) :=
  generate_chart_cfg az u n (CONFIGS name) name

/-- `generate_all`: charts for the selected difficulties in order, threading
the single seeded rng stream through every chart. -/
def generate_all (az : Analyzer) (u : ℕ → ℚ) (n : ℕ) :
    List DiffName → Option (List (DiffName × Chart) × ℕ)
  | [] => some ([], n)
  | name :: rest =>
      match generate_chart az u n name with
      | none => none
      | some p =>
          match generate_all az u p.2 rest with
          | none => none
          | some q => some ((name, p.1) :: q.1, q.2)

/-! ### Statement-level predicates and concrete witness inputs -/

/-- A rational that is an integer multiple of 0.5. -/
def HalfIntegral (q : ℚ) : Prop := ∃ k : ℤ, q = (k : ℚ) / 2

/-- The value `r` belongs to the candidate list and maximises the alignment
score over it. -/
def IsBestCandidate (onsets cands : List ℚ) (r : ℚ) : Prop :=
  r ∈ cands ∧ ∀ c ∈ cands, cand_score onsets c ≤ cand_score onsets r

/-- The downbeat returned by the accent heuristic lies at or before the
phase-selected beat and differs from it by an exact whole number of
measures (`4 × 60/BPM`). -/
def DownbeatMeasureAligned (beat_times strengths bassRaw : List ℚ)
    (rmsAt : ℚ → ℚ) (bpm music_start : ℚ) : Prop :=
  best_phase beat_times strengths (bass_normalized bassRaw) rmsAt < 4 ∧
  detect_downbeat_from_beat_strengths beat_times strengths bassRaw rmsAt bpm music_start ≤
    beat_times.getD (best_phase beat_times strengths (bass_normalized bassRaw) rmsAt) 0 ∧
  ∃ k : ℕ,
    detect_downbeat_from_beat_strengths beat_times strengths bassRaw rmsAt bpm music_start =
      beat_times.getD (best_phase beat_times strengths (bass_normalized bassRaw) rmsAt) 0 -
        (k : ℚ) * (4 * (60 / bpm))

/-- Every row of every measure has at most `k` active lanes. -/
def AllRowsLe (k : ℕ) (measures : List (List Row)) : Prop :=
  ∀ ms ∈ measures, ∀ r ∈ ms, countActive r ≤ k

/-- Grid indices of the jump rows of one measure, the first row sitting at
flat index `base`. -/
def jumps_from (base : ℕ) : List Row → List ℕ
  | [] => []
  | row :: rest =>
      if 2 ≤ row.sum then base :: jumps_from (base + 1) rest
      else jumps_from (base + 1) rest

def jump_indices_go (subdiv : ℕ) : ℕ → List (List Row) → List ℕ
  | _, [] => []
  | m, meas :: rest =>
      jumps_from (m * subdiv) meas ++ jump_indices_go subdiv (m + 1) rest

/-- Flat grid indices (`m * subdiv + r`) of the jump rows (2 or more active
lanes) of a chart. -/
def jump_indices (subdiv : ℕ) (measures : List (List Row)) : List ℕ :=
  jump_indices_go subdiv 0 measures

/-- Consecutive retained jumps are at least 3 grid rows apart. -/
def JumpsSpaced (l : List ℕ) : Prop := l.Chain' (fun a b => a + 3 ≤ b)

/-- Row-by-row description of rule 5: every row is either untouched or was a
jump downgraded to at most one lane drawn from its active lanes. -/
def Rule5Pointwise (input output : List (List Row)) : Prop :=
  List.Forall₂ (List.Forall₂ (fun rin rout =>
    rout = rin ∨
      (2 ≤ rin.sum ∧ rout.sum ≤ 1 ∧ ∀ i, rout.getD i 0 ≠ 0 → rin.getD i 0 ≠ 0)))
    input output

/-- How rule 1 may change a row: kept, or cleared. -/
def Rel1 (rin rout : Row) : Prop := rout = rin ∨ rout = zerosRow

/-- How rule 2 may change a row: kept, or a single-lane row rewritten to a
middle lane. -/
def Rel2 (rin rout : Row) : Prop :=
  rout = rin ∨ ((activeIdx rin).length = 1 ∧ (rout = [0, 0, 1, 0] ∨ rout = [0, 1, 0, 0]))

/-- How rule 3 may change a row: kept, or a lone note upgraded by setting
one extra lane. -/
def Rel3 (rin rout : Row) : Prop :=
  rout = rin ∨ (rowActive rin = true ∧ rin.sum = 1 ∧ ∃ p, rout = rin.set p 1)

/-- How rule 4 may change a row: kept, or a single-note run row rewritten to
one pattern lane. -/
def Rel4 (rin rout : Row) : Prop :=
  rout = rin ∨ (has_note rin = true ∧ ∃ a, rout = zerosRow.set a 1)

/-- How rule 5 may change a row: kept, or a jump downgraded to one lane. -/
def Rel5 (rin rout : Row) : Prop :=
  rout = rin ∨ (2 ≤ rin.sum ∧ ∃ a, rout = zerosRow.set a 1)

/-- A small concrete analysis result used by the witnesses: a 1-second
120 BPM session with two beats and no onsets. -/
def cAz : Analyzer := ⟨1, 0, 120, 0, [0, 1/2], [], fun _ => 0, fun _ => 1⟩

/-- The all-zero uniform stream (every draw is 0 ∈ [0,1)). -/
def cU : ℕ → ℚ := fun _ => 0

/-- The chart produced for `cAz` at Beginner from the zero stream. -/
def bChart : Chart :=
  ⟨.Beginner, 1, 4, [[[1, 0, 0, 0], [0, 0, 0, 0], [0, 0, 0, 0], [0, 0, 0, 0]]], 1⟩

/-- The chart produced for `cAz` at Challenge from the zero stream. -/
def chChart : Chart :=
  ⟨.Challenge, 10, 16,
    [[[1, 1, 0, 0], [0, 0, 0, 0], [0, 0, 0, 0], [0, 0, 0, 0],
      [1, 1, 0, 0], [0, 0, 0, 0], [0, 0, 0, 0], [0, 0, 0, 0],
      [0, 0, 0, 0], [0, 0, 0, 0], [0, 0, 0, 0], [0, 0, 0, 0],
      [0, 0, 0, 0], [0, 0, 0, 0], [0, 0, 0, 0], [0, 0, 0, 0]]], 2⟩

def c3BeatTimes : List ℚ := [0, 1/2, 1, 3/2, 2, 5/2, 3, 7/2]
def c3Strengths : List ℚ := [1, 1, 1, 9, 1, 1, 1, 9]
def c3Bass : List ℚ := [1, 1, 1, 1, 1, 1, 1, 1]
def c3Rms : ℚ → ℚ := fun _ => 0

/-! ### Support lemmas -/

theorem le_pythonRound (q : ℚ) : q - 1/2 ≤ (pythonRound q : ℚ) := by
  unfold pythonRound
  have h1 := Int.floor_le q
  have h2 := Int.lt_floor_add_one q
  split_ifs <;> push_cast <;> linarith

theorem pythonRound_le (q : ℚ) : (pythonRound q : ℚ) ≤ q + 1/2 := by
  unfold pythonRound
  have h1 := Int.floor_le q
  have h2 := Int.lt_floor_add_one q
  split_ifs <;> push_cast <;> linarith

theorem snap_half_range (b : ℚ) (h1 : 60 ≤ b) (h2 : b ≤ 200) :
    60 ≤ snap_half b ∧ snap_half b ≤ 200 := by
  have hl := le_pythonRound (b * 2)
  have hr := pythonRound_le (b * 2)
  unfold snap_half
  constructor
  · have h3 : (119 : ℤ) < pythonRound (b * 2) := by
      have : (119 : ℚ) < (pythonRound (b * 2) : ℚ) := by linarith
      exact_mod_cast this
    have h4 : (120 : ℚ) ≤ (pythonRound (b * 2) : ℚ) := by exact_mod_cast h3
    linarith
  · have h3 : pythonRound (b * 2) < 401 := by
      have : ((pythonRound (b * 2)) : ℚ) < 401 := by linarith
      exact_mod_cast this
    have h4 : ((pythonRound (b * 2)) : ℚ) ≤ 400 := by
      have : pythonRound (b * 2) ≤ 400 := by omega
      exact_mod_cast this
    linarith

theorem round2_range (v : ℚ) (h1 : 60 ≤ v) (h2 : v ≤ 200) :
    60 ≤ round2 v ∧ round2 v ≤ 200 := by
  have hl := le_pythonRound (v * 100)
  have hr := pythonRound_le (v * 100)
  unfold round2
  constructor
  · have h3 : (5999 : ℤ) < pythonRound (v * 100) := by
      have : (5999 : ℚ) < (pythonRound (v * 100) : ℚ) := by linarith
      exact_mod_cast this
    have h4 : (6000 : ℚ) ≤ (pythonRound (v * 100) : ℚ) := by exact_mod_cast h3
    linarith
  · have h3 : pythonRound (v * 100) < 20001 := by
      have : ((pythonRound (v * 100)) : ℚ) < 20001 := by linarith
      exact_mod_cast this
    have h4 : ((pythonRound (v * 100)) : ℚ) ≤ 20000 := by
      have : pythonRound (v * 100) ≤ 20000 := by omega
      exact_mod_cast this
    linarith

theorem foldl_inv {α β : Type} (f : β → α → β) (P : β → Prop)
    (h : ∀ b a, P b → P (f b a)) : ∀ (l : List α) (b : β), P b → P (l.foldl f b) := by
  intro l
  induction l with
  | nil => intro b hb; exact hb
  | cons a t ih => intro b hb; exact ih _ (h b a hb)

theorem octave_candidates_range (raw : List ℚ) :
    ∀ x ∈ octave_candidates raw, 60 ≤ x ∧ x ≤ 200 := by
  unfold octave_candidates
  apply foldl_inv (P := fun acc => ∀ x ∈ acc, 60 ≤ x ∧ x ≤ 200)
  · intro b t hb
    apply foldl_inv (P := fun acc => ∀ x ∈ acc, 60 ≤ x ∧ x ≤ 200)
    · intro acc m hacc
      dsimp only
      split_ifs with h1 h2
      · exact hacc
      · intro x hx
        rcases List.mem_append.mp hx with h | h
        · exact hacc x h
        · have hx2 : x = round2 (t * m) := by simpa using h
          subst hx2
          exact round2_range _ h1.1 h1.2
      · exact hacc
    · exact hb
  · simp

theorem onset_align_nonneg (c ot : ℚ) : 0 ≤ onset_align c ot := by
  unfold onset_align
  exact le_max_left 0 _

theorem cand_score_nonneg (onsets : List ℚ) (c : ℚ) : 0 ≤ cand_score onsets c := by
  unfold cand_score
  apply mul_nonneg
  · apply div_nonneg
    · apply List.sum_nonneg
      intro x hx
      rcases List.mem_map.mp hx with ⟨ot, _, rfl⟩
      exact onset_align_nonneg c ot
    · positivity
  · split_ifs <;> norm_num

theorem select_best_fst_mono (onsets : List ℚ) :
    ∀ (l : List ℚ) (acc : ℚ × ℚ), acc.1 ≤ (select_best onsets l acc).1 := by
  intro l
  induction l with
  | nil => intro acc; exact le_refl _
  | cons c rest ih =>
    intro acc
    simp only [select_best]
    have step : acc.1 ≤ (if acc.1 < cand_score onsets c then (cand_score onsets c, c) else acc).1 := by
      split_ifs with h
      · exact le_of_lt h
      · exact le_refl _
    exact le_trans step (ih _)

theorem select_best_ge (onsets : List ℚ) :
    ∀ (l : List ℚ) (acc : ℚ × ℚ) (c : ℚ), c ∈ l →
      cand_score onsets c ≤ (select_best onsets l acc).1 := by
  intro l
  induction l with
  | nil => intro acc c hc; exact absurd hc (List.not_mem_nil c)
  | cons a rest ih =>
    intro acc c hc
    rcases List.mem_cons.mp hc with rfl | h
    · simp only [select_best]
      have step : cand_score onsets c ≤
          (if acc.1 < cand_score onsets c then (cand_score onsets c, c) else acc).1 := by
        split_ifs with h
        · exact le_refl _
        · exact not_lt.mp h
      exact le_trans step (select_best_fst_mono onsets rest _)
    · simp only [select_best]
      exact ih _ c h

theorem select_best_mem (onsets : List ℚ) :
    ∀ (l : List ℚ) (acc : ℚ × ℚ), select_best onsets l acc = acc ∨
      ∃ c ∈ l, (select_best onsets l acc).2 = c ∧
        (select_best onsets l acc).1 = cand_score onsets c := by
  intro l
  induction l with
  | nil => intro acc; exact Or.inl rfl
  | cons a rest ih =>
    intro acc
    simp only [select_best]
    by_cases h : acc.1 < cand_score onsets a
    · rw [if_pos h]
      rcases ih (cand_score onsets a, a) with heq | ⟨c, hc, h2, h1⟩
      · right
        exact ⟨a, List.mem_cons_self a rest, by rw [heq], by rw [heq]⟩
      · right
        exact ⟨c, List.mem_cons_of_mem a hc, h2, h1⟩
    · rw [if_neg h]
      rcases ih acc with heq | ⟨c, hc, h2, h1⟩
      · exact Or.inl heq
      · exact Or.inr ⟨c, List.mem_cons_of_mem a hc, h2, h1⟩

theorem mm_candidates_ne_nil (t1 t2 t4 : ℚ) (t3 : List ℚ) :
    mm_candidates t1 t2 t4 t3 ≠ [] := by
  simp only [mm_candidates]
  split_ifs with h
  · simp
  · exact h

theorem estimate_is_best (t1 t2 t4 : ℚ) (t3 onsets : List ℚ) :
    IsBestCandidate onsets (mm_candidates t1 t2 t4 t3)
      (estimate_bpm_multimethod t1 t2 t4 t3 onsets) := by
  have hne := mm_candidates_ne_nil t1 t2 t4 t3
  rcases select_best_mem onsets (mm_candidates t1 t2 t4 t3) (-1, t1) with heq | ⟨c, hc, h2, h1⟩
  · exfalso
    obtain ⟨c₀, hc₀⟩ := List.exists_mem_of_ne_nil _ hne
    have hge := select_best_ge onsets (mm_candidates t1 t2 t4 t3) (-1, t1) c₀ hc₀
    have hnn := cand_score_nonneg onsets c₀
    rw [heq] at hge
    simp at hge
    linarith
  · constructor
    · unfold estimate_bpm_multimethod
      rw [h2]
      exact hc
    · intro c' hc'
      have hge := select_best_ge onsets (mm_candidates t1 t2 t4 t3) (-1, t1) c' hc'
      unfold estimate_bpm_multimethod
      rw [h2, ← h1]
      exact hge

theorem estimate_range (t1 t2 t4 : ℚ) (t3 onsets : List ℚ)
    (h : octave_candidates (raw_candidates t1 t2 t4 t3) ≠ []) :
    60 ≤ estimate_bpm_multimethod t1 t2 t4 t3 onsets ∧
      estimate_bpm_multimethod t1 t2 t4 t3 onsets ≤ 200 := by
  have hmem := (estimate_is_best t1 t2 t4 t3 onsets).1
  have hc : mm_candidates t1 t2 t4 t3 = octave_candidates (raw_candidates t1 t2 t4 t3) := by
    unfold mm_candidates
    rw [if_neg h]
  rw [hc] at hmem
  exact octave_candidates_range _ _ hmem

theorem set_insert_clean_subset (t : List (Option ℚ)) (mask : ℕ) (x v : ℚ)
    (h : some v ∈ set_insert_clean t mask x) : some v ∈ t ∨ v = x := by
  rcases hp : probe_clean t mask (mask + 14) (pyHashIdx x % (mask + 1)) (pyHashIdx x)
    with _ | j
  · simp only [set_insert_clean, hp] at h
    exact Or.inl h
  · simp only [set_insert_clean, hp] at h
    rcases List.mem_or_eq_of_mem_set h with h1 | h1
    · exact Or.inl h1
    · exact Or.inr (Option.some.inj h1)

theorem set_rebuild_subset (mask : ℕ) :
    ∀ (old acc : List (Option ℚ)) (v : ℚ),
      some v ∈ set_rebuild mask old acc → some v ∈ acc ∨ some v ∈ old := by
  intro old
  induction old with
  | nil => intro acc v h; exact Or.inl h
  | cons o rest ih =>
    intro acc v h
    cases o with
    | none =>
      rcases ih acc v h with h1 | h1
      · exact Or.inl h1
      · exact Or.inr (List.mem_cons_of_mem _ h1)
    | some x =>
      rcases ih (set_insert_clean acc mask x) v h with h1 | h1
      · rcases set_insert_clean_subset acc mask x v h1 with h2 | h2
        · exact Or.inl h2
        · right
          rw [h2]
          exact List.mem_cons_self _ _
      · exact Or.inr (List.mem_cons_of_mem _ h1)

theorem pySetAdd_subset (s : PySet) (x v : ℚ)
    (h : some v ∈ (pySetAdd s x).table) : some v ∈ s.table ∨ v = x := by
  rcases hp : probe_add s.table s.mask x (s.mask + 14)
      (pyHashIdx x % (s.mask + 1)) (pyHashIdx x) with _ | ⟨b, j⟩
  · simp only [pySetAdd, hp] at h
    exact Or.inl h
  · cases b with
    | false =>
      simp only [pySetAdd, hp] at h
      exact Or.inl h
    | true =>
      simp only [pySetAdd, hp] at h
      split_ifs at h with hg
      · rcases List.mem_or_eq_of_mem_set h with h1 | h1
        · exact Or.inl h1
        · exact Or.inr (Option.some.inj h1)
      all_goals
        simp only [set_table_resize] at h
        rcases set_rebuild_subset _ _ _ v h with h1 | h1
        · exact absurd (List.eq_of_mem_replicate h1) (by simp)
        · rcases List.mem_or_eq_of_mem_set h1 with h2 | h2
          · exact Or.inl h2
          · exact Or.inr (Option.some.inj h2)

theorem octave_candidates_py_range (raw : List ℚ) :
    ∀ x ∈ octave_candidates_py raw, 60 ≤ x ∧ x ≤ 200 := by
  have hinv : ∀ w : ℚ, some w ∈ (raw.foldl (fun s t =>
      octaveMults.foldl (fun s m =>
        let v := t * m
        if 60 ≤ v ∧ v ≤ 200 then pySetAdd s (round2 v) else s) s)
        PySet.empty).table →
      60 ≤ w ∧ w ≤ 200 := by
    apply foldl_inv (P := fun s : PySet => ∀ w, some w ∈ s.table → 60 ≤ w ∧ w ≤ 200)
    · intro s t hs
      apply foldl_inv (P := fun s : PySet => ∀ w, some w ∈ s.table → 60 ≤ w ∧ w ≤ 200)
      · intro s' m hs'
        dsimp only
        split_ifs with hr
        · intro w hw
          rcases pySetAdd_subset s' (round2 (t * m)) w hw with h1 | h1
          · exact hs' w h1
          · rw [h1]
            exact round2_range _ hr.1 hr.2
        · exact hs'
      · exact hs
    · intro w hw
      exact absurd (List.eq_of_mem_replicate hw) (by simp)
  intro x hx
  unfold octave_candidates_py PySet.toList at hx
  rcases List.mem_filterMap.mp hx with ⟨o, ho, hid⟩
  simp only [id] at hid
  subst hid
  exact hinv x ho

theorem mm_candidates_py_ne_nil (t1 t2 t4 : ℚ) (t3 : List ℚ) :
    mm_candidates_py t1 t2 t4 t3 ≠ [] := by
  simp only [mm_candidates_py]
  split_ifs with h
  · simp
  · exact h

theorem estimate_py_is_best (t1 t2 t4 : ℚ) (t3 onsets : List ℚ) :
    IsBestCandidate onsets (mm_candidates_py t1 t2 t4 t3)
      (estimate_bpm_multimethod_py t1 t2 t4 t3 onsets) := by
  have hne := mm_candidates_py_ne_nil t1 t2 t4 t3
  rcases select_best_mem onsets (mm_candidates_py t1 t2 t4 t3) (-1, t1)
    with heq | ⟨c, hc, h2, h1⟩
  · exfalso
    obtain ⟨c₀, hc₀⟩ := List.exists_mem_of_ne_nil _ hne
    have hge := select_best_ge onsets (mm_candidates_py t1 t2 t4 t3) (-1, t1) c₀ hc₀
    have hnn := cand_score_nonneg onsets c₀
    rw [heq] at hge
    simp at hge
    linarith
  · constructor
    · unfold estimate_bpm_multimethod_py
      rw [h2]
      exact hc
    · intro c' hc'
      have hge := select_best_ge onsets (mm_candidates_py t1 t2 t4 t3) (-1, t1) c' hc'
      unfold estimate_bpm_multimethod_py
      rw [h2, ← h1]
      exact hge

theorem estimate_py_range (t1 t2 t4 : ℚ) (t3 onsets : List ℚ)
    (h : octave_candidates_py (raw_candidates t1 t2 t4 t3) ≠ []) :
    60 ≤ estimate_bpm_multimethod_py t1 t2 t4 t3 onsets ∧
      estimate_bpm_multimethod_py t1 t2 t4 t3 onsets ≤ 200 := by
  have hmem := (estimate_py_is_best t1 t2 t4 t3 onsets).1
  have hc : mm_candidates_py t1 t2 t4 t3 =
      octave_candidates_py (raw_candidates t1 t2 t4 t3) := by
    unfold mm_candidates_py
    rw [if_neg h]
  rw [hc] at hmem
  exact octave_candidates_py_range _ _ hmem

theorem walk_back_aux_sub (md lowLimit : ℚ) :
    ∀ (fuel : ℕ) (x : ℚ), ∃ k : ℕ, walk_back_aux md lowLimit fuel x = x - (k : ℚ) * md := by
  intro fuel
  induction fuel with
  | zero =>
    intro x
    exact ⟨0, by simp [walk_back_aux]⟩
  | succ f ih =>
    intro x
    simp only [walk_back_aux]
    split_ifs with h
    · obtain ⟨k, hk⟩ := ih (x - md)
      refine ⟨k + 1, ?_⟩
      rw [hk]
      push_cast
      ring
    · exact ⟨0, by simp⟩

theorem walk_back_sub (x0 md lowLimit : ℚ) :
    ∃ k : ℕ, walk_back x0 md lowLimit = x0 - (k : ℚ) * md := by
  unfold walk_back
  split_ifs with h
  · exact walk_back_aux_sub md _ _ x0
  · exact ⟨0, by simp⟩

theorem best_phase_fold_mem (bt s bn : List ℚ) (r : ℚ → ℚ) :
    ∀ (l : List ℕ) (acc : ℚ × ℕ),
      (best_phase_fold bt s bn r l acc).2 = acc.2 ∨ (best_phase_fold bt s bn r l acc).2 ∈ l := by
  intro l
  induction l with
  | nil => intro acc; exact Or.inl rfl
  | cons p rest ih =>
    intro acc
    simp only [best_phase_fold]
    split_ifs with h1 h2
    · rcases ih acc with he | hm
      · exact Or.inl he
      · exact Or.inr (List.mem_cons_of_mem p hm)
    · rcases ih (phase_score bt s bn r p, p) with he | hm
      · exact Or.inr (by rw [he]; exact List.mem_cons_self p rest)
      · exact Or.inr (List.mem_cons_of_mem p hm)
    · rcases ih acc with he | hm
      · exact Or.inl he
      · exact Or.inr (List.mem_cons_of_mem p hm)

theorem best_phase_lt4 (bt s bn : List ℚ) (r : ℚ → ℚ) : best_phase bt s bn r < 4 := by
  unfold best_phase
  rcases best_phase_fold_mem bt s bn r [0, 1, 2, 3] (-1, 0) with he | hm
  · rw [he]; norm_num
  · simp only [List.mem_cons, List.not_mem_nil, or_false] at hm
    omega

theorem countActive_le_sum (r : Row) : countActive r ≤ r.sum := by
  unfold countActive
  induction r with
  | nil => simp
  | cons v t ih =>
    rw [List.countP_cons, List.sum_cons]
    split_ifs with h
    · simp only [decide_eq_true_eq] at h
      omega
    · omega

theorem sum_set_le (r : Row) : ∀ i : ℕ, (r.set i 1).sum ≤ r.sum + 1 := by
  induction r with
  | nil => intro i; simp
  | cons v t ih =>
    intro i
    cases i with
    | zero => simp [List.set]; omega
    | succ j =>
      simp only [List.set, List.sum_cons]
      have := ih j
      omega

theorem zeros_set_sum_le (i : ℕ) : (zerosRow.set i 1).sum ≤ 1 := by
  have := sum_set_le zerosRow i
  simpa [zerosRow] using this

theorem zeros_set_set_sum_le (i j : ℕ) : ((zerosRow.set i 1).set j 1).sum ≤ 2 := by
  have h1 := sum_set_le (zerosRow.set i 1) j
  have h2 := zeros_set_sum_le i
  omega

theorem getD_ne_zero_active (r : Row) (i : ℕ) (h : r.getD i 0 ≠ 0) :
    rowActive r = true := by
  unfold rowActive
  rw [List.any_eq_true]
  by_cases hi : i < r.length
  · refine ⟨r.getD i 0, ?_, by simpa using Nat.pos_of_ne_zero h⟩
    rw [List.getD_eq_getElem r 0 hi]
    exact List.getElem_mem hi
  · exact absurd (List.getD_eq_default r 0 (le_of_not_lt hi)) h

theorem sum_pos_active (r : Row) (h : 1 ≤ r.sum) : rowActive r = true := by
  unfold rowActive
  rw [List.any_eq_true]
  induction r with
  | nil => simp at h
  | cons v t ih =>
    rw [List.sum_cons] at h
    by_cases hv : 0 < v
    · exact ⟨v, List.mem_cons_self v t, by simpa using hv⟩
    · have hv0 : v = 0 := by omega
      obtain ⟨x, hx, hx2⟩ := ih (by omega)
      exact ⟨x, List.mem_cons_of_mem v hx, hx2⟩

theorem activeIdx_mem_ne_zero (r : Row) (i : ℕ) (h : i ∈ activeIdx r) :
    r.getD i 0 ≠ 0 := by
  unfold activeIdx at h
  have := List.of_mem_filter h
  simpa using this

theorem activeIdx_len_one_active (r : Row) (h : (activeIdx r).length = 1) :
    rowActive r = true := by
  have hne : activeIdx r ≠ [] := by
    intro h0
    rw [h0] at h
    simp at h
  obtain ⟨i, hi⟩ := List.exists_mem_of_ne_nil _ hne
  exact getD_ne_zero_active r i (activeIdx_mem_ne_zero r i hi)

theorem has_note_active (r : Row) (h : has_note r = true) : rowActive r = true := by
  unfold has_note at h
  exact (Bool.and_eq_true _ _ |>.mp h).1

/-- How the countP of active rows behaves along a rowwise `Forall₂`. -/
theorem countP_le_of_forall₂ {rel : Row → Row → Prop}
    (h : ∀ a b, rel a b → rowActive b = true → rowActive a = true) :
    ∀ {r1 r2 : List Row}, List.Forall₂ rel r1 r2 →
      r2.countP rowActive ≤ r1.countP rowActive := by
  intro r1 r2 h12
  induction h12 with
  | nil => exact le_refl _
  | cons hab htail ih =>
    rename_i a b l1 l2
    rw [List.countP_cons, List.countP_cons]
    by_cases hb : rowActive b = true
    · rw [if_pos hb, if_pos (h a b hab hb)]
      omega
    · rw [if_neg hb]
      split_ifs <;> omega

theorem arc_le_of_forall₂ {rel : Row → Row → Prop}
    (h : ∀ a b, rel a b → rowActive b = true → rowActive a = true) :
    ∀ {l1 l2 : List (List Row)}, List.Forall₂ (List.Forall₂ rel) l1 l2 →
      active_row_count l2 ≤ active_row_count l1 := by
  intro l1 l2 h12
  induction h12 with
  | nil => exact le_refl _
  | cons hab htail ih =>
    unfold active_row_count at *
    simp only [List.map_cons, List.sum_cons]
    exact Nat.add_le_add (countP_le_of_forall₂ h hab) ih

theorem allP_row_of_forall₂ {rel : Row → Row → Prop} {P : Row → Prop}
    (h : ∀ a b, rel a b → P a → P b) :
    ∀ {r1 r2 : List Row}, List.Forall₂ rel r1 r2 →
      (∀ x ∈ r1, P x) → ∀ y ∈ r2, P y := by
  intro r1 r2 h12
  induction h12 with
  | nil => intro _ y hy; exact absurd hy (List.not_mem_nil y)
  | cons hxy hrest ih =>
    rename_i x y l1 l2
    intro hP z hz
    rcases List.mem_cons.mp hz with rfl | hz'
    · exact h x z hxy (hP x (List.mem_cons_self x l1))
    · exact ih (fun w hw => hP w (List.mem_cons_of_mem x hw)) z hz'

theorem allP_of_forall₂ {rel : Row → Row → Prop} {P : Row → Prop}
    (h : ∀ a b, rel a b → P a → P b) :
    ∀ {l1 l2 : List (List Row)}, List.Forall₂ (List.Forall₂ rel) l1 l2 →
      (∀ ms ∈ l1, ∀ r ∈ ms, P r) → ∀ ms ∈ l2, ∀ r ∈ ms, P r := by
  intro l1 l2 h12
  induction h12 with
  | nil => intro _ ms hms; exact absurd hms (List.not_mem_nil ms)
  | cons hab htail ih =>
    rename_i a b t1 t2
    intro hP ms hms r hr
    rcases List.mem_cons.mp hms with rfl | hms'
    · exact allP_row_of_forall₂ h hab (hP a (List.mem_cons_self a t1)) r hr
    · exact ih (fun m hm => hP m (List.mem_cons_of_mem a hm)) ms hms' r hr

theorem forall₂_self_of {rel : Row → Row → Prop} (h : ∀ a, rel a a) (l : List Row) :
    List.Forall₂ rel l l := by
  induction l with
  | nil => exact List.Forall₂.nil
  | cons a t ih => exact List.Forall₂.cons (h a) ih

theorem forall₂_enumFrom_map {α β : Type} {rel : α → β → Prop} (f : ℕ × α → β)
    (P : α → Prop) (hf : ∀ i r, P r → rel r (f (i, r))) :
    ∀ (l : List α) (k : ℕ), (∀ r ∈ l, P r) →
      List.Forall₂ rel l ((l.enumFrom k).map f) := by
  intro l
  induction l with
  | nil => intro k _; exact List.Forall₂.nil
  | cons a t ih =>
    intro k hP
    rw [List.enumFrom_cons, List.map_cons]
    exact List.Forall₂.cons (hf k a (hP a (List.mem_cons_self a t)))
      (ih (k + 1) (fun r hr => hP r (List.mem_cons_of_mem a hr)))

theorem rule1_rel (az : Analyzer) (spr offset : ℚ) (subdiv : ℕ)
    (measures : List (List Row)) :
    List.Forall₂ (List.Forall₂ Rel1) measures (rule1 az spr offset subdiv measures) := by
  unfold rule1
  apply forall₂_enumFrom_map _ (fun _ => True) _ _ 0 (fun _ _ => trivial)
  intro m meas _
  apply forall₂_enumFrom_map _ (fun _ => True) _ _ 0 (fun _ _ => trivial)
  intro r row _
  dsimp only
  split_ifs with h
  · exact Or.inr rfl
  · exact Or.inl rfl

theorem rule2_row_rel (st : ℤ) (row : Row) : Rel2 row (rule2_row st row).1 := by
  unfold rule2_row
  dsimp only
  split_ifs with h1 h2 h3 h4 h5 h6 <;>
    first
      | exact Or.inl rfl
      | exact Or.inr ⟨h1, Or.inl rfl⟩
      | exact Or.inr ⟨h1, Or.inr rfl⟩

theorem rule2_meas_rel : ∀ (rows : List Row) (st : ℤ),
    List.Forall₂ Rel2 rows (rule2_meas st rows).1 := by
  intro rows
  induction rows with
  | nil => intro st; exact List.Forall₂.nil
  | cons row rest ih =>
    intro st
    exact List.Forall₂.cons (rule2_row_rel st row) (ih _)

theorem rule2_go_rel : ∀ (measures : List (List Row)) (st : ℤ),
    List.Forall₂ (List.Forall₂ Rel2) measures (rule2_go st measures) := by
  intro measures
  induction measures with
  | nil => intro st; exact List.Forall₂.nil
  | cons meas rest ih =>
    intro st
    exact List.Forall₂.cons (rule2_meas_rel meas st) (ih _)

theorem rule2_rel (measures : List (List Row)) :
    List.Forall₂ (List.Forall₂ Rel2) measures (rule2 measures) :=
  rule2_go_rel measures (-1)

theorem rule3_meas_rel (az : Analyzer) (u : ℕ → ℚ) (spr offset : ℚ)
    (subdiv m n : ℕ) (meas : List Row) :
    List.Forall₂ Rel3 meas (rule3_meas az u spr offset subdiv m n meas).1 := by
  cases meas with
  | nil => exact List.Forall₂.nil
  | cons row rest =>
    unfold rule3_meas
    dsimp only
    have hrest : List.Forall₂ Rel3 rest rest := forall₂_self_of (fun a => Or.inl rfl) rest
    split_ifs with h1 h2 h3 h4 <;>
      first
        | exact List.Forall₂.cons (Or.inl rfl) hrest
        | exact List.Forall₂.cons (Or.inr ⟨h1.1, h1.2, _, rfl⟩) hrest

theorem rule3_go_rel (az : Analyzer) (u : ℕ → ℚ) (spr offset : ℚ) (subdiv : ℕ) :
    ∀ (measures : List (List Row)) (m n : ℕ),
      List.Forall₂ (List.Forall₂ Rel3) measures
        (rule3_go az u spr offset subdiv m measures n).1 := by
  intro measures
  induction measures with
  | nil => intro m n; exact List.Forall₂.nil
  | cons meas rest ih =>
    intro m n
    exact List.Forall₂.cons (rule3_meas_rel az u spr offset subdiv m n meas) (ih _ _)

theorem rule3_rel (az : Analyzer) (u : ℕ → ℚ) (spr offset : ℚ) (subdiv : ℕ)
    (measures : List (List Row)) (n : ℕ) :
    List.Forall₂ (List.Forall₂ Rel3) measures
      (rule3 az u spr offset subdiv measures n).1 :=
  rule3_go_rel az u spr offset subdiv measures 0 n

theorem apply_run_rel (u : ℕ → ℚ) (run : List Row) (n : ℕ)
    (hall : ∀ r ∈ run, has_note r = true) :
    List.Forall₂ Rel4 run (apply_run u run n).1 := by
  unfold apply_run
  dsimp only
  split_ifs with h
  · exact forall₂_enumFrom_map
      (fun ir => zerosRow.set ((randChoice u n patterns [0, 1, 2, 3]).1.getD (ir.1 % 4) 0) 1)
      (fun r => has_note r = true)
      (fun i r hr => Or.inr ⟨hr, _, rfl⟩) run 0 hall
  · exact forall₂_self_of (fun a => Or.inl rfl) run

theorem smooth_scan_rel (u : ℕ → ℚ) :
    ∀ (input run : List Row) (n : ℕ), (∀ r ∈ run, has_note r = true) →
      List.Forall₂ Rel4 (run ++ input) (smooth_scan u input run n).1 := by
  intro input
  induction input with
  | nil =>
    intro run n hall
    rw [List.append_nil]
    exact apply_run_rel u run n hall
  | cons row rest ih =>
    intro run n hall
    unfold smooth_scan
    split_ifs with h
    · have hall' : ∀ r ∈ run ++ [row], has_note r = true := by
        intro r hr
        rcases List.mem_append.mp hr with h1 | h1
        · exact hall r h1
        · rw [List.mem_singleton.mp h1]; exact h
      have := ih (run ++ [row]) n hall'
      rw [List.append_assoc] at this
      simpa using this
    · dsimp only
      have h1 := apply_run_rel u run n hall
      have h2 := ih [] (apply_run u run n).2 (by intro r hr; exact absurd hr (List.not_mem_nil r))
      rw [List.nil_append] at h2
      exact List.rel_append h1 (List.Forall₂.cons (Or.inl rfl) h2)

theorem unflatten_forall₂ {rel : Row → Row → Prop} :
    ∀ (shape : List (List Row)) (flat : List Row),
      List.Forall₂ rel shape.flatten flat →
      List.Forall₂ (List.Forall₂ rel) shape (unflatten_like shape flat) := by
  intro shape
  induction shape with
  | nil => intro flat _; exact List.Forall₂.nil
  | cons ms rest ih =>
    intro flat h
    rw [List.flatten_cons] at h
    unfold unflatten_like
    constructor
    · have := List.forall₂_take ms.length h
      rwa [List.take_left] at this
    · apply ih
      have := List.forall₂_drop ms.length h
      rwa [List.drop_left] at this

theorem rule4_rel (u : ℕ → ℚ) (measures : List (List Row)) (n : ℕ) :
    List.Forall₂ (List.Forall₂ Rel4) measures (rule4 u measures n).1 := by
  unfold rule4
  dsimp only
  apply unflatten_forall₂
  have := smooth_scan_rel u measures.flatten [] n
    (by intro r hr; exact absurd hr (List.not_mem_nil r))
  simpa using this

theorem rule5_row_rel (level : ℕ) (u : ℕ → ℚ) (gi : ℕ) (last : ℤ) (n : ℕ)
    (row : Row) : Rel5 row (rule5_row level u gi last n row).1 := by
  unfold rule5_row
  dsimp only
  split_ifs with h1 h2
  · exact Or.inr ⟨h1, _, rfl⟩
  · exact Or.inl rfl
  · exact Or.inl rfl

theorem rule5_meas_rel (level : ℕ) (u : ℕ → ℚ) (subdiv m : ℕ) :
    ∀ (rows : List Row) (r : ℕ) (last : ℤ) (n : ℕ),
      List.Forall₂ Rel5 rows (rule5_meas level u subdiv m r rows last n).1 := by
  intro rows
  induction rows with
  | nil => intro r last n; exact List.Forall₂.nil
  | cons row rest ih =>
    intro r last n
    exact List.Forall₂.cons (rule5_row_rel level u (m * subdiv + r) last n row) (ih _ _ _)

theorem rule5_go_rel (level : ℕ) (u : ℕ → ℚ) (subdiv : ℕ) :
    ∀ (measures : List (List Row)) (m : ℕ) (last : ℤ) (n : ℕ),
      List.Forall₂ (List.Forall₂ Rel5) measures
        (rule5_go level u subdiv m measures last n).1 := by
  intro measures
  induction measures with
  | nil => intro m last n; exact List.Forall₂.nil
  | cons meas rest ih =>
    intro m last n
    exact List.Forall₂.cons (rule5_meas_rel level u subdiv m meas 0 last n) (ih _ _ _)

theorem rule5_rel (subdiv level : ℕ) (measures : List (List Row)) (u : ℕ → ℚ)
    (n : ℕ) :
    List.Forall₂ (List.Forall₂ Rel5) measures (rule5 subdiv level measures u n).1 :=
  rule5_go_rel level u subdiv measures 0 (-999) n

theorem rel1_act (a b : Row) (h : Rel1 a b) (hb : rowActive b = true) :
    rowActive a = true := by
  rcases h with rfl | rfl
  · exact hb
  · exact absurd hb (by decide)

theorem rel2_act (a b : Row) (h : Rel2 a b) (hb : rowActive b = true) :
    rowActive a = true := by
  rcases h with rfl | ⟨h1, _⟩
  · exact hb
  · exact activeIdx_len_one_active a h1

theorem rel3_act (a b : Row) (h : Rel3 a b) (hb : rowActive b = true) :
    rowActive a = true := by
  rcases h with rfl | ⟨h1, _, _⟩
  · exact hb
  · exact h1

theorem rel4_act (a b : Row) (h : Rel4 a b) (hb : rowActive b = true) :
    rowActive a = true := by
  rcases h with rfl | ⟨h1, _⟩
  · exact hb
  · exact has_note_active a h1

theorem rel5_act (a b : Row) (h : Rel5 a b) (hb : rowActive b = true) :
    rowActive a = true := by
  rcases h with rfl | ⟨h1, _⟩
  · exact hb
  · exact sum_pos_active a (by omega)

theorem rel1_sum (k : ℕ) (a b : Row) (h : Rel1 a b) (ha : a.sum ≤ k) : b.sum ≤ k := by
  rcases h with rfl | rfl
  · exact ha
  · simp [zerosRow]

theorem rel2_sum (k : ℕ) (hk : 1 ≤ k) (a b : Row) (h : Rel2 a b) (ha : a.sum ≤ k) :
    b.sum ≤ k := by
  rcases h with rfl | ⟨_, rfl | rfl⟩
  · exact ha
  · simpa using hk
  · simpa using hk

theorem rel3_sum (a b : Row) (h : Rel3 a b) (ha : a.sum ≤ 2) : b.sum ≤ 2 := by
  rcases h with rfl | ⟨_, h1, p, rfl⟩
  · exact ha
  · have := sum_set_le a p
    omega

theorem rel4_sum (k : ℕ) (hk : 1 ≤ k) (a b : Row) (h : Rel4 a b) (ha : a.sum ≤ k) :
    b.sum ≤ k := by
  rcases h with rfl | ⟨_, p, rfl⟩
  · exact ha
  · exact le_trans (zeros_set_sum_le p) hk

theorem rel5_sum (k : ℕ) (hk : 1 ≤ k) (a b : Row) (h : Rel5 a b) (ha : a.sum ≤ k) :
    b.sum ≤ k := by
  rcases h with rfl | ⟨_, p, rfl⟩
  · exact ha
  · exact le_trans (zeros_set_sum_le p) hk

/-- Post-processing never adds a note to a previously empty row: the number
of active rows only decreases. -/
theorem postprocess_arc_le (az : Analyzer) (u : ℕ → ℚ) (subdiv : ℕ) (cfg : Config)
    (measures : List (List Row)) (n : ℕ) :
    active_row_count (postprocess az u subdiv cfg measures n).1 ≤
      active_row_count measures := by
  unfold postprocess
  dsimp only
  refine le_trans (arc_le_of_forall₂ rel5_act (rule5_rel _ _ _ _ _)) ?_
  split_ifs <;>
    (try dsimp only) <;>
    repeat
      first
        | exact arc_le_of_forall₂ rel1_act (rule1_rel _ _ _ _ _)
        | refine le_trans (arc_le_of_forall₂ rel4_act (rule4_rel _ _ _)) ?_
        | refine le_trans (arc_le_of_forall₂ rel3_act (rule3_rel _ _ _ _ _ _ _)) ?_
        | refine le_trans (arc_le_of_forall₂ rel2_act (rule2_rel _)) ?_

/-- Post-processing keeps every row at or below 2 active notes of total
value (rows hold only 0/1 entries, so the sum is the note count). -/
theorem postprocess_sum2 (az : Analyzer) (u : ℕ → ℚ) (subdiv : ℕ) (cfg : Config)
    (measures : List (List Row)) (n : ℕ)
    (hin : ∀ ms ∈ measures, ∀ r ∈ ms, r.sum ≤ 2) :
    ∀ ms ∈ (postprocess az u subdiv cfg measures n).1, ∀ r ∈ ms, r.sum ≤ 2 := by
  unfold postprocess
  dsimp only
  refine allP_of_forall₂ (rel5_sum 2 (by omega)) (rule5_rel _ _ _ _ _) ?_
  split_ifs <;>
    (try dsimp only) <;>
    repeat
      first
        | exact allP_of_forall₂ (rel1_sum 2) (rule1_rel _ _ _ _ _) hin
        | refine allP_of_forall₂ (rel4_sum 2 (by omega)) (rule4_rel _ _ _) ?_
        | refine allP_of_forall₂ (rel3_sum) (rule3_rel _ _ _ _ _ _ _) ?_
        | refine allP_of_forall₂ (rel2_sum 2 (by omega)) (rule2_rel _) ?_

/-- Below level 5 (so rules 3 and 4 are skipped), post-processing keeps
every row at or below a single note. -/
theorem postprocess_sum1 (az : Analyzer) (u : ℕ → ℚ) (subdiv : ℕ) (cfg : Config)
    (measures : List (List Row)) (n : ℕ) (hlvl : cfg.level < 5)
    (hin : ∀ ms ∈ measures, ∀ r ∈ ms, r.sum ≤ 1) :
    ∀ ms ∈ (postprocess az u subdiv cfg measures n).1, ∀ r ∈ ms, r.sum ≤ 1 := by
  unfold postprocess
  dsimp only
  have h5 : ¬(5 ≤ cfg.level) := by omega
  have h8 : ¬(8 ≤ cfg.level) := by omega
  rw [if_neg h5]
  dsimp only
  rw [if_neg h8]
  dsimp only
  refine allP_of_forall₂ (rel5_sum 1 (le_refl 1)) (rule5_rel _ _ _ _ _) ?_
  split_ifs <;>
    first
      | exact allP_of_forall₂ (rel1_sum 1) (rule1_rel _ _ _ _ _) hin
      | exact allP_of_forall₂ (rel2_sum 1 (le_refl 1)) (rule2_rel _)
          (allP_of_forall₂ (rel1_sum 1) (rule1_rel _ _ _ _ _) hin)

theorem pick_arrow_sum_le2 (az : Analyzer) (u : ℕ → ℚ) (n : ℕ) (t : ℚ)
    (prev : List ℕ) (cfg : Config) : (pick_arrow az u n t prev cfg).1.sum ≤ 2 := by
  unfold pick_arrow
  dsimp only
  split_ifs <;>
    first
      | exact zeros_set_set_sum_le _ _
      | exact le_trans (zeros_set_sum_le _) (by omega)

theorem pick_arrow_sum_le1 (az : Analyzer) (u : ℕ → ℚ) (n : ℕ) (t : ℚ)
    (prev : List ℕ) (cfg : Config) (h : cfg.jump_prob = 0) :
    (pick_arrow az u n t prev cfg).1.sum ≤ 1 := by
  unfold pick_arrow
  dsimp only
  rw [if_neg (by simp [h])]
  exact zeros_set_sum_le _

theorem build_rows_count (az : Analyzer) (u : ℕ → ℚ) (cfg : Config)
    (grid : Finset ℕ) (spr offset : ℚ) :
    ∀ (gis prev : List ℕ) (n : ℕ),
      ((build_rows az u cfg grid spr offset gis prev n).1).countP rowActive ≤
        gis.countP (fun gi => decide (gi ∈ grid)) := by
  intro gis
  induction gis with
  | nil => intro prev n; simp [build_rows]
  | cons gi rest ih =>
    intro prev n
    unfold build_rows
    dsimp only
    split_ifs with h
    · rw [List.countP_cons, List.countP_cons]
      refine Nat.add_le_add (ih _ _) ?_
      have h2 : (decide (gi ∈ grid)) = true := by simp [h.1]
      rw [h2]
      split_ifs <;> simp_all
    · rw [List.countP_cons, List.countP_cons]
      have h2 : rowActive zerosRow = false := by decide
      rw [h2]
      simp only [Bool.false_eq_true, if_false, Nat.add_zero]
      exact le_trans (ih _ _) (Nat.le_add_right _ _)

theorem build_rows_sum (az : Analyzer) (u : ℕ → ℚ) (cfg : Config)
    (grid : Finset ℕ) (spr offset : ℚ) (bound : ℕ)
    (hp : ∀ (n : ℕ) (t : ℚ) (prev : List ℕ), (pick_arrow az u n t prev cfg).1.sum ≤ bound) :
    ∀ (gis prev : List ℕ) (n : ℕ),
      ∀ r ∈ (build_rows az u cfg grid spr offset gis prev n).1, r.sum ≤ bound := by
  intro gis
  induction gis with
  | nil => intro prev n r hr; simp [build_rows] at hr
  | cons gi rest ih =>
    intro prev n
    unfold build_rows
    dsimp only
    split_ifs with h <;>
      intro r hr <;>
      rcases List.mem_cons.mp hr with rfl | hr'
    · exact hp _ _ _
    · exact ih _ _ r hr'
    · simp [zerosRow]
    · exact ih _ _ r hr'

theorem range_countP_eq (grid : Finset ℕ) :
    ∀ N : ℕ, (List.range N).countP (fun gi => decide (gi ∈ grid)) =
      (grid.filter (· < N)).card := by
  intro N
  induction N with
  | zero => simp
  | succ n ih =>
    rw [List.range_succ, List.countP_append, ih]
    simp only [List.countP_cons, List.countP_nil]
    by_cases h : n ∈ grid
    · have hins : grid.filter (· < n + 1) = insert n (grid.filter (· < n)) := by
        ext g
        simp only [Finset.mem_filter, Finset.mem_insert]
        constructor
        · rintro ⟨hg, hlt⟩
          rcases Nat.lt_succ_iff_lt_or_eq.mp hlt with h1 | rfl
          · exact Or.inr ⟨hg, h1⟩
          · exact Or.inl rfl
        · rintro (rfl | ⟨hg, hlt⟩)
          · exact ⟨h, by omega⟩
          · exact ⟨hg, by omega⟩
      rw [hins, Finset.card_insert_of_not_mem (by simp)]
      simp [h]
    · have heq : grid.filter (· < n + 1) = grid.filter (· < n) := by
        ext g
        simp only [Finset.mem_filter]
        constructor
        · rintro ⟨hg, hlt⟩
          have : g ≠ n := by rintro rfl; exact h hg
          exact ⟨hg, by omega⟩
        · rintro ⟨hg, hlt⟩
          exact ⟨hg, by omega⟩
      rw [heq]
      simp [h]

theorem range_countP_le_card (grid : Finset ℕ) (N : ℕ) :
    (List.range N).countP (fun gi => decide (gi ∈ grid)) ≤ grid.card := by
  rw [range_countP_eq]
  exact Finset.card_filter_le grid _

theorem foldl_insert_card {α : Type} [DecidableEq α] (f : ℕ → α) :
    ∀ (l : List ℕ) (init : Finset α),
      (l.foldl (fun s i => insert (f i) s) init).card ≤ init.card + l.length := by
  intro l
  induction l with
  | nil => intro init; simp
  | cons a rest ih =>
    intro init
    simp only [List.foldl_cons, List.length_cons]
    have h1 := ih (insert (f a) init)
    have h2 := Finset.card_insert_le (f a) init
    omega

theorem capped_grid_card (duration maxNps : ℚ) (g g' : Finset ℕ)
    (h : capped_grid duration maxNps g = some g') :
    g'.card ≤ (pyInt (duration * maxNps)).toNat := by
  unfold capped_grid at h
  dsimp only at h
  split_ifs at h with h1 h2 <;>
    first
      | exact Option.noConfusion h
      | (obtain rfl := Option.some.inj h
         refine le_trans (foldl_insert_card _ _ _) ?_
         simp)
      | (obtain rfl := Option.some.inj h
         have h3 : (g.card : ℤ) ≤ pyInt (duration * maxNps) := not_lt.mp h1
         omega)

theorem chunk_go_flatten {α : Type} (k : ℕ) :
    ∀ (l acc : List α) (rem : ℕ), (chunk_go k l acc rem).flatten = acc ++ l := by
  intro l
  induction l with
  | nil =>
    intro acc rem
    unfold chunk_go
    split_ifs with h
    · simp [List.isEmpty_iff.mp h]
    · simp
  | cons x xs ih =>
    intro acc rem
    unfold chunk_go
    split_ifs with h
    · simp [ih]
    · simp [ih]

theorem chunk_flatten {α : Type} (k : ℕ) (hk : k ≠ 0) (l : List α) :
    (chunk_rows k l).flatten = l := by
  unfold chunk_rows
  rw [if_neg hk]
  simp [chunk_go_flatten]

theorem arc_eq_flatten (mss : List (List Row)) :
    active_row_count mss = mss.flatten.countP rowActive := by
  induction mss with
  | nil => simp [active_row_count]
  | cons ms rest ih =>
    unfold active_row_count at *
    simp only [List.map_cons, List.sum_cons, List.flatten_cons, List.countP_append]
    omega

theorem trim_rev_sublist : ∀ l : List (List Row), List.Sublist (trim_rev l) l := by
  intro l
  induction l with
  | nil => exact List.Sublist.refl []
  | cons m rest ih =>
    cases rest with
    | nil => exact List.Sublist.refl [m]
    | cons m2 r2 =>
      rw [trim_rev]
      · split_ifs with h
        · exact List.Sublist.cons m ih
        · exact List.Sublist.refl _
      · simp

theorem trim_trailing_sublist (ms : List (List Row)) : List.Sublist (trim_trailing ms) ms := by
  unfold trim_trailing
  have h := (trim_rev_sublist ms.reverse).reverse
  simpa using h

theorem sublist_sum_le {l1 l2 : List ℕ} (h : List.Sublist l1 l2) : l1.sum ≤ l2.sum := by
  induction h with
  | slnil => exact le_refl _
  | cons a _ ih => simp only [List.sum_cons]; omega
  | cons₂ a _ ih => simp only [List.sum_cons]; omega

theorem sublist_arc_le {l1 l2 : List (List Row)} (h : List.Sublist l1 l2) :
    active_row_count l1 ≤ active_row_count l2 := by
  unfold active_row_count
  exact sublist_sum_le (h.map _)

theorem chunk_mem {α : Type} (k : ℕ) (hk : k ≠ 0) (l : List α) (ms : List α)
    (hms : ms ∈ chunk_rows k l) (r : α) (hr : r ∈ ms) : r ∈ l := by
  have h := List.mem_flatten_of_mem hms hr
  rwa [chunk_flatten k hk l] at h

theorem rule5_row_id (level : ℕ) (h9 : 9 ≤ level) (u : ℕ → ℚ) (gi : ℕ)
    (last : ℤ) (n : ℕ) (row : Row) : (rule5_row level u gi last n row).1 = row := by
  unfold rule5_row
  split_ifs with h1 h2
  · omega
  · rfl
  · rfl

theorem rule5_meas_id (level : ℕ) (h9 : 9 ≤ level) (u : ℕ → ℚ) (subdiv m : ℕ) :
    ∀ (rows : List Row) (r : ℕ) (last : ℤ) (n : ℕ),
      (rule5_meas level u subdiv m r rows last n).1 = rows := by
  intro rows
  induction rows with
  | nil => intro r last n; rfl
  | cons row rest ih =>
    intro r last n
    simp only [rule5_meas]
    rw [rule5_row_id level h9, ih]

theorem rule5_go_id (level : ℕ) (h9 : 9 ≤ level) (u : ℕ → ℚ) (subdiv : ℕ) :
    ∀ (measures : List (List Row)) (m : ℕ) (last : ℤ) (n : ℕ),
      (rule5_go level u subdiv m measures last n).1 = measures := by
  intro measures
  induction measures with
  | nil => intro m last n; rfl
  | cons meas rest ih =>
    intro m last n
    simp only [rule5_go]
    rw [rule5_meas_id level h9, ih]

theorem rule5_meas_spec (level : ℕ) (hlvl : level < 9) (u : ℕ → ℚ) (subdiv m : ℕ) :
    ∀ (rows : List Row) (r : ℕ) (last : ℤ) (n : ℕ),
      last < ((m * subdiv + r : ℕ) : ℤ) →
      last ≤ (rule5_meas level u subdiv m r rows last n).2.1 ∧
      (rule5_meas level u subdiv m r rows last n).2.1 <
        ((m * subdiv + r + rows.length : ℕ) : ℤ) ∧
      List.Chain' (fun a b => a + 3 ≤ b)
        (jumps_from (m * subdiv + r) (rule5_meas level u subdiv m r rows last n).1) ∧
      ∀ g ∈ jumps_from (m * subdiv + r) (rule5_meas level u subdiv m r rows last n).1,
        last + 3 ≤ (g : ℤ) ∧ (g : ℤ) ≤ (rule5_meas level u subdiv m r rows last n).2.1 := by
  intro rows
  induction rows with
  | nil =>
    intro r last n hpre
    refine ⟨le_refl _, ?_, List.chain'_nil, ?_⟩
    · simpa using hpre
    · intro g hg
      exact absurd hg (List.not_mem_nil g)
  | cons row rest ih =>
    intro r last n hpre
    have hshift : m * subdiv + r + 1 = m * subdiv + (r + 1) := by omega
    simp only [rule5_meas]
    unfold rule5_row
    split_ifs with hs hc
    · -- downgraded jump: head is not a jump in the output
      have hhead : ¬(2 ≤ (zerosRow.set (randChoice u n (activeIdx row) 0).1 1).sum) := by
        have := zeros_set_sum_le (randChoice u n (activeIdx row) 0).1
        omega
      simp only [jumps_from, if_neg hhead]
      rw [hshift]
      have := ih (r + 1) last (randChoice u n (activeIdx row) 0).2
        (by push_cast; push_cast at hpre; omega)
      refine ⟨this.1, ?_, this.2.2.1, ?_⟩
      · have hb := this.2.1
        push_cast at hb ⊢
        simp only [List.length_cons]
        push_cast
        omega
      · intro g hg
        exact this.2.2.2 g hg
    · -- retained jump: becomes the new reference
      have hret : last + 3 ≤ ((m * subdiv + r : ℕ) : ℤ) := by
        push_cast
        push_cast at hc
        omega
      simp only [jumps_from, if_pos hs]
      rw [hshift]
      have := ih (r + 1) ((m * subdiv + r : ℕ) : ℤ) n
        (by push_cast; omega)
      refine ⟨?_, ?_, ?_, ?_⟩
      · exact le_trans (by omega) this.1
      · have hb := this.2.1
        push_cast at hb ⊢
        simp only [List.length_cons]
        push_cast
        omega
      · rw [List.chain'_cons']
        refine ⟨?_, this.2.2.1⟩
        intro b hb
        have hbm : b ∈ jumps_from (m * subdiv + (r + 1))
            (rule5_meas level u subdiv m (r + 1) rest ((m * subdiv + r : ℕ) : ℤ) n).1 :=
          List.mem_of_mem_head? hb
        have := (this.2.2.2 b hbm).1
        omega
      · intro g hg
        rcases List.mem_cons.mp hg with rfl | hg'
        · exact ⟨hret, this.1⟩
        · have hd := this.2.2.2 g hg'
          constructor
          · have : ((m * subdiv + r : ℕ) : ℤ) + 3 ≤ (g : ℤ) := hd.1
            omega
          · exact hd.2
    · -- not a jump: row and reference unchanged
      have hns : ¬(2 ≤ row.sum) := hs
      simp only [jumps_from, if_neg hns]
      rw [hshift]
      have := ih (r + 1) last n (by push_cast; push_cast at hpre; omega)
      refine ⟨this.1, ?_, this.2.2.1, ?_⟩
      · have hb := this.2.1
        push_cast at hb ⊢
        simp only [List.length_cons]
        push_cast
        omega
      · intro g hg
        exact this.2.2.2 g hg

theorem rule5_go_spec (level : ℕ) (hlvl : level < 9) (u : ℕ → ℚ) (subdiv : ℕ) :
    ∀ (measures : List (List Row)) (m : ℕ) (last : ℤ) (n : ℕ),
      (∀ meas ∈ measures, meas.length = subdiv) →
      last < ((m * subdiv : ℕ) : ℤ) →
      last ≤ (rule5_go level u subdiv m measures last n).2.1 ∧
      (rule5_go level u subdiv m measures last n).2.1 <
        (((m + measures.length) * subdiv : ℕ) : ℤ) ∧
      List.Chain' (fun a b => a + 3 ≤ b)
        (jump_indices_go subdiv m (rule5_go level u subdiv m measures last n).1) ∧
      ∀ g ∈ jump_indices_go subdiv m (rule5_go level u subdiv m measures last n).1,
        last + 3 ≤ (g : ℤ) ∧ (g : ℤ) ≤ (rule5_go level u subdiv m measures last n).2.1 := by
  intro measures
  induction measures with
  | nil =>
    intro m last n _ hpre
    refine ⟨le_refl _, by simpa using hpre, List.chain'_nil, ?_⟩
    intro g hg
    exact absurd hg (List.not_mem_nil g)
  | cons meas rest ih =>
    intro m last n hU hpre
    have hlen : meas.length = subdiv := hU meas (List.mem_cons_self _ _)
    have e1 : m * subdiv + 0 + meas.length = (m + 1) * subdiv := by rw [hlen]; ring
    have e2 : (m + 1 + rest.length) * subdiv = (m + (meas :: rest).length) * subdiv := by
      congr 1
      simp [List.length_cons]
      omega
    simp only [rule5_go]
    have spec1 := rule5_meas_spec level hlvl u subdiv m meas 0 last n
      (by push_cast; push_cast at hpre; omega)
    rw [e1] at spec1
    simp only [Nat.add_zero] at spec1
    have ihh := ih (m + 1) (rule5_meas level u subdiv m 0 meas last n).2.1
      (rule5_meas level u subdiv m 0 meas last n).2.2
      (fun x hx => hU x (List.mem_cons_of_mem _ hx)) spec1.2.1
    rw [← e2]
    simp only [jump_indices_go]
    refine ⟨le_trans spec1.1 ihh.1, ihh.2.1, ?_, ?_⟩
    · rw [List.chain'_append]
      refine ⟨spec1.2.2.1, ihh.2.2.1, ?_⟩
      intro x hx y hy
      have hx' := spec1.2.2.2 x (List.mem_of_mem_getLast? hx)
      have hy' := ihh.2.2.2 y (List.mem_of_mem_head? hy)
      omega
    · intro g hg
      rcases List.mem_append.mp hg with hg1 | hg2
      · have hd := spec1.2.2.2 g hg1
        exact ⟨hd.1, le_trans hd.2 ihh.1⟩
      · have hd := ihh.2.2.2 g hg2
        have := spec1.1
        exact ⟨by omega, hd.2⟩

theorem activeIdx_mem_lt (r : Row) (i : ℕ) (h : i ∈ activeIdx r) : i < 4 := by
  unfold activeIdx at h
  have := List.mem_of_mem_filter h
  simpa using this

theorem choice_mem {α : Type} (u : ℕ → ℚ) (n : ℕ) (l : List α) (d : α)
    (h0 : 0 ≤ u n) (h1 : u n < 1) (hne : l ≠ []) : (randChoice u n l d).1 ∈ l := by
  unfold randChoice
  dsimp only
  have hlen : 0 < l.length := List.length_pos.mpr hne
  have hx0 : (0 : ℚ) ≤ u n * (l.length : ℚ) := mul_nonneg h0 (by positivity)
  have hflo : 0 ≤ Int.floor (u n * (l.length : ℚ)) := Int.floor_nonneg.mpr hx0
  have hlt : u n * (l.length : ℚ) < (l.length : ℚ) := by
    have h := mul_lt_mul_of_pos_right h1 (by exact_mod_cast hlen : (0 : ℚ) < (l.length : ℚ))
    simpa using h
  have hfl : Int.floor (u n * (l.length : ℚ)) < (l.length : ℤ) := by
    rw [Int.floor_lt]
    exact_mod_cast hlt
  have htn : (Int.floor (u n * (l.length : ℚ))).toNat < l.length := by omega
  rw [List.getD_eq_getElem _ _ htn]
  exact List.getElem_mem htn

theorem zeros_set_getD (k i : ℕ) (hk : k < 4)
    (h : (zerosRow.set k 1).getD i 0 ≠ 0) : i = k := by
  by_cases hi : i < 4
  · interval_cases k <;> interval_cases i <;> first | rfl | exact absurd h (by decide)
  · exfalso
    obtain ⟨j, rfl⟩ : ∃ j, i = j + 4 := ⟨i - 4, by omega⟩
    interval_cases k <;> exact h rfl

theorem activeIdx_ne_nil (r : Row) (hlen : r.length = 4) (hs : 2 ≤ r.sum) :
    activeIdx r ≠ [] := by
  rcases r with _ | ⟨a, _ | ⟨b, _ | ⟨c, _ | ⟨d, _ | ⟨e, t⟩⟩⟩⟩⟩
  · simp at hlen
  · simp at hlen
  · simp at hlen
  · simp at hlen
  · intro hnil
    have h0 : ∀ i ∈ List.range 4, ¬([a, b, c, d].getD i 0 ≠ 0) := by
      intro i hi hne
      have hmem : i ∈ activeIdx [a, b, c, d] :=
        List.mem_filter.mpr ⟨hi, by simpa using hne⟩
      rw [hnil] at hmem
      exact absurd hmem (List.not_mem_nil i)
    have ha : ¬(a ≠ 0) := h0 0 (by decide)
    have hb : ¬(b ≠ 0) := h0 1 (by decide)
    have hc : ¬(c ≠ 0) := h0 2 (by decide)
    have hd : ¬(d ≠ 0) := h0 3 (by decide)
    simp only [ne_eq, not_not] at ha hb hc hd
    subst ha hb hc hd
    exact absurd hs (by decide)
  · simp at hlen

theorem rule5_row_pointwise (level : ℕ) (u : ℕ → ℚ) (gi : ℕ) (last : ℤ) (n : ℕ)
    (row : Row) (hlen : row.length = 4) (hu0 : 0 ≤ u n) (hu1 : u n < 1) :
    (rule5_row level u gi last n row).1 = row ∨
      (2 ≤ row.sum ∧ (rule5_row level u gi last n row).1.sum ≤ 1 ∧
        ∀ i, (rule5_row level u gi last n row).1.getD i 0 ≠ 0 → row.getD i 0 ≠ 0) := by
  unfold rule5_row
  dsimp only
  split_ifs with h1 h2
  · right
    refine ⟨h1, zeros_set_sum_le _, ?_⟩
    intro i hi
    have hne := activeIdx_ne_nil row hlen h1
    have hmem : (randChoice u n (activeIdx row) 0).1 ∈ activeIdx row :=
      choice_mem u n (activeIdx row) 0 hu0 hu1 hne
    have hk4 : (randChoice u n (activeIdx row) 0).1 < 4 := activeIdx_mem_lt _ _ hmem
    have heq := zeros_set_getD _ i hk4 hi
    rw [heq]
    exact activeIdx_mem_ne_zero row _ hmem
  · exact Or.inl rfl
  · exact Or.inl rfl

theorem rule5_meas_pointwise (level : ℕ) (u : ℕ → ℚ) (hu : ∀ i, 0 ≤ u i ∧ u i < 1)
    (subdiv m : ℕ) :
    ∀ (rows : List Row) (r : ℕ) (last : ℤ) (n : ℕ),
      (∀ row ∈ rows, row.length = 4) →
      List.Forall₂ (fun rin rout => rout = rin ∨
          (2 ≤ rin.sum ∧ rout.sum ≤ 1 ∧
            ∀ i, rout.getD i 0 ≠ 0 → rin.getD i 0 ≠ 0))
        rows (rule5_meas level u subdiv m r rows last n).1 := by
  intro rows
  induction rows with
  | nil => intro r last n _; exact List.Forall₂.nil
  | cons row rest ih =>
    intro r last n hlen
    refine List.Forall₂.cons ?_ (ih _ _ _ (fun x hx => hlen x (List.mem_cons_of_mem _ hx)))
    exact rule5_row_pointwise level u (m * subdiv + r) last n row
      (hlen row (List.mem_cons_self _ _)) (hu _).1 (hu _).2

theorem rule5_go_pointwise (level : ℕ) (u : ℕ → ℚ) (hu : ∀ i, 0 ≤ u i ∧ u i < 1)
    (subdiv : ℕ) :
    ∀ (measures : List (List Row)) (m : ℕ) (last : ℤ) (n : ℕ),
      (∀ meas ∈ measures, ∀ row ∈ meas, row.length = 4) →
      Rule5Pointwise measures (rule5_go level u subdiv m measures last n).1 := by
  intro measures
  induction measures with
  | nil => intro m last n _; exact List.Forall₂.nil
  | cons meas rest ih =>
    intro m last n hR
    exact List.Forall₂.cons
      (rule5_meas_pointwise level u hu subdiv m meas 0 _ _
        (hR meas (List.mem_cons_self _ _)))
      (ih _ _ _ (fun x hx => hR x (List.mem_cons_of_mem _ hx)))

theorem findIdx?_first {α : Type} (p : α → Bool) (d : α) :
    ∀ (l : List α) (i : ℕ), i < l.length → p (l.getD i d) = true →
      (∀ j, j < i → p (l.getD j d) = false) → l.findIdx? p = some i := by
  intro l
  induction l with
  | nil => intro i hi; simp at hi
  | cons a t ih =>
    intro i hi hp hmin
    cases i with
    | zero =>
      simp only [List.getD_cons_zero] at hp
      simp [List.findIdx?_cons, hp]
    | succ i' =>
      have h0 : p a = false := by
        have := hmin 0 (Nat.succ_pos _)
        simpa using this
      have ht : t.findIdx? p = some i' := by
        apply ih
        · simpa using hi
        · simpa using hp
        · intro j hj
          have := hmin (j + 1) (by omega)
          simpa using this
      simp [List.findIdx?_cons, h0, ht]

/-! ### Claim theorems -/

/-- C8: for every waveform (nonempty RMS envelope), the music-start detector
returns `max 0 (t − 0.05)` where `t` is the time of the earliest RMS frame
strictly exceeding 5% of the peak RMS, and 0 when no frame exceeds the
threshold; the embedded function is total, so it always returns a value. -/
theorem c8_music_start_spec (rms : List ℚ) (_hne : rms ≠ []) :
    ((∀ v ∈ rms, v ≤ listMax rms * (5/100)) → detect_music_start rms = 0) ∧
    (∀ i, i < rms.length → listMax rms * (5/100) < rms.getD i 0 →
      (∀ j, j < i → rms.getD j 0 ≤ listMax rms * (5/100)) →
      detect_music_start rms = max 0 (rms_frame_time i - 5/100)) := by
  constructor
  · intro hall
    have hfind : rms.findIdx? (fun v => decide (listMax rms * (5/100) < v)) = none := by
      rw [List.findIdx?_eq_none_iff]
      intro x hx
      simpa using not_lt.mpr (hall x hx)
    simp only [detect_music_start, hfind]
    norm_num
  · intro i hi hp hmin
    have hfind : rms.findIdx? (fun v => decide (listMax rms * (5/100) < v)) = some i := by
      apply findIdx?_first _ (0 : ℚ) rms i hi
      · simpa using hp
      · intro j hj
        simpa using not_lt.mpr (hmin j hj)
    simp only [detect_music_start, hfind]

theorem c8_music_start_spec_witness :
    ([(0 : ℚ), 1, 2] ≠ [] ∧ (1 : ℕ) < [(0 : ℚ), 1, 2].length ∧
      listMax [(0 : ℚ), 1, 2] * (5/100) < [(0 : ℚ), 1, 2].getD 1 0) ∧
    detect_music_start [(0 : ℚ), 1, 2] = max 0 (rms_frame_time 1 - 5/100) :=
  ⟨⟨by decide, by decide, by norm_num [listMax]⟩,
    (c8_music_start_spec [(0 : ℚ), 1, 2] (by decide)).2 1 (by decide)
      (by norm_num [listMax])
      (by intro j hj; interval_cases j; norm_num [listMax])⟩

/-- C2 (amended): the final stored BPM is always an integer multiple of 0.5
in both backends; the bound [60, 200] additionally holds on the librosa path
without a manual override whenever the octave-variant candidate set is
nonempty. A manual override (validated only to (0, 300]) and the raw madmom
estimate are merely snapped to 0.5 and may lie outside [60, 200]. -/
theorem c2_final_bpm_amended (override : Option ℚ) (t1 t2 t4 : ℚ)
    (t3 onsets tempi : List ℚ) :
    HalfIntegral (final_bpm_librosa override t1 t2 t4 t3 onsets) ∧
    HalfIntegral (final_bpm_madmom override tempi t1 t2 t4 t3 onsets) ∧
    (octave_candidates (raw_candidates t1 t2 t4 t3) ≠ [] →
      60 ≤ final_bpm_librosa none t1 t2 t4 t3 onsets ∧
        final_bpm_librosa none t1 t2 t4 t3 onsets ≤ 200) := by
  refine ⟨⟨pythonRound (_ * 2), rfl⟩, ⟨pythonRound (_ * 2), rfl⟩, ?_⟩
  intro h
  have hr := estimate_range t1 t2 t4 t3 onsets h
  exact snap_half_range _ hr.1 hr.2

theorem c2_final_bpm_amended_witness :
    HalfIntegral (final_bpm_librosa none 120 120 120 [] []) ∧
    HalfIntegral (final_bpm_madmom none [] 120 120 120 [] []) ∧
    (octave_candidates (raw_candidates 120 120 120 []) ≠ [] ∧
      60 ≤ final_bpm_librosa none 120 120 120 [] [] ∧
        final_bpm_librosa none 120 120 120 [] [] ≤ 200) :=
  ⟨(c2_final_bpm_amended none 120 120 120 [] [] []).1,
   (c2_final_bpm_amended none 120 120 120 [] [] []).2.1,
   by decide,
   (c2_final_bpm_amended none 120 120 120 [] [] []).2.2 (by decide)⟩

/-- C2 counterexample: a manual BPM override of 250 — accepted by the GUI
validation range (0, 300] — is stored unchanged by the pipeline, so the
final serialized BPM is not in [60, 200]. -/
theorem c2_counterexample :
    final_bpm_librosa (some 250) 0 0 0 [] [] = 250 ∧
    ¬(final_bpm_librosa (some 250) 0 0 0 [] [] ≤ 200) ∧
    (0 : ℚ) < 250 ∧ (250 : ℚ) ≤ 300 := by decide

/-- C4 (amended): the multi-method estimator returns a candidate of the
enumerated candidate set whose alignment score (with the ×1.10 bonus on
[80, 130]) is maximal, and that value lies in [60, 200] whenever at least
one octave variant of a raw estimate survived the range filter. Ties
between distinct candidates are broken by CPython's set iteration order —
the earliest slot of the candidate hash table — not in favour of the
unmodified first-method estimate. -/
theorem c4_multimethod_argmax (t1 t2 t4 : ℚ) (t3 onsets : List ℚ) :
    IsBestCandidate onsets (mm_candidates_py t1 t2 t4 t3)
      (estimate_bpm_multimethod_py t1 t2 t4 t3 onsets) ∧
    (octave_candidates_py (raw_candidates t1 t2 t4 t3) ≠ [] →
      60 ≤ estimate_bpm_multimethod_py t1 t2 t4 t3 onsets ∧
        estimate_bpm_multimethod_py t1 t2 t4 t3 onsets ≤ 200) :=
  ⟨estimate_py_is_best t1 t2 t4 t3 onsets, estimate_py_range t1 t2 t4 t3 onsets⟩

theorem c4_multimethod_argmax_witness :
    IsBestCandidate [] (mm_candidates_py 150 150 150 [])
      (estimate_bpm_multimethod_py 150 150 150 [] []) ∧
    (octave_candidates_py (raw_candidates 150 150 150 []) ≠ [] ∧
      60 ≤ estimate_bpm_multimethod_py 150 150 150 [] [] ∧
        estimate_bpm_multimethod_py 150 150 150 [] [] ≤ 200) :=
  ⟨(c4_multimethod_argmax 150 150 150 [] []).1, by decide,
    (c4_multimethod_argmax 150 150 150 [] []).2 (by decide)⟩

/-- C4 counterexample: with first-method estimate t1 = 120 and no scoring
onsets, every candidate ties at score 0 — in particular the unmodified
first-method estimate 120 is itself a candidate — yet the estimator returns
160, not 120. `best_score` starts at −1 and every score is ≥ 0, so the
candidate enumerated first wins all ties, and CPython iterates this
candidate set (all entries integral, so hashed and placed exactly as the
model does) as [160, 80, 180, 120, 90, 60]: the code gives the first-method
estimate no tie priority whatsoever. -/
theorem c4_counterexample :
    mm_candidates_py 120 120 120 [] = [160, 80, 180, 120, 90, 60] ∧
    estimate_bpm_multimethod_py 120 120 120 [] [] = 160 ∧
    (120 : ℚ) ∈ mm_candidates_py 120 120 120 [] ∧
    cand_score [] 120 = cand_score [] 160 ∧
    estimate_bpm_multimethod_py 120 120 120 [] [] ≠ 120 := by decide

/-- C3 (amended): after the accent heuristic completes (8 or more beats, a
positive BPM), the chosen downbeat lies at or before the beat selected by
the winning phase — `beat_times[best_phase]`, not necessarily the first
beat — and differs from it by an exact whole number of measure durations.
When `best_phase ≠ 0` and the backward walk is blocked by the music-start
window, the downbeat can strictly exceed the first beat's time. -/
theorem c3_downbeat_amended (beat_times strengths bassRaw : List ℚ)
    (rmsAt : ℚ → ℚ) (bpm music_start : ℚ)
    (h8 : 8 ≤ beat_times.length) (hbpm : 0 < bpm) :
    DownbeatMeasureAligned beat_times strengths bassRaw rmsAt bpm music_start := by
  unfold DownbeatMeasureAligned
  have hnot : ¬(beat_times.length < 8) := by omega
  have hmd : 0 < 4 * (60 / bpm) := by positivity
  have hdet : detect_downbeat_from_beat_strengths beat_times strengths bassRaw rmsAt bpm music_start
      = walk_back
          (beat_times.getD (best_phase beat_times strengths (bass_normalized bassRaw) rmsAt) 0)
          (4 * (60 / bpm)) (music_start - (60 / bpm) * (1/4)) := by
    simp [detect_downbeat_from_beat_strengths, hnot]
  obtain ⟨k, hk⟩ := walk_back_sub
    (beat_times.getD (best_phase beat_times strengths (bass_normalized bassRaw) rmsAt) 0)
    (4 * (60 / bpm)) (music_start - (60 / bpm) * (1/4))
  refine ⟨best_phase_lt4 _ _ _ _, ?_, k, ?_⟩
  · rw [hdet, hk]
    have : 0 ≤ (k : ℚ) * (4 * (60 / bpm)) :=
      mul_nonneg (Nat.cast_nonneg k) (le_of_lt hmd)
    linarith
  · rw [hdet, hk]

theorem c3_downbeat_amended_witness :
    (8 ≤ c3BeatTimes.length ∧ (0 : ℚ) < 120) ∧
    DownbeatMeasureAligned c3BeatTimes c3Strengths c3Bass c3Rms 120 0 :=
  ⟨⟨by decide, by norm_num⟩,
    c3_downbeat_amended c3BeatTimes c3Strengths c3Bass c3Rms 120 0 (by decide) (by norm_num)⟩

/-- C3 counterexample: on an 8-beat track at 120 BPM whose accents select
phase 3, the returned downbeat is 1.5 s while the first beat is at 0 s, so
the downbeat exceeds the first beat's time, and the residue of
`first_beat − downbeat` modulo the 2-second measure is 0.5 s — a full beat
period, far outside any quarter-beat tolerance (0.125 s). -/
theorem c3_counterexample :
    detect_downbeat_from_beat_strengths c3BeatTimes c3Strengths c3Bass c3Rms 120 0 = 3/2 ∧
    ¬(detect_downbeat_from_beat_strengths c3BeatTimes c3Strengths c3Bass c3Rms 120 0 ≤
        c3BeatTimes.headD 0) ∧
    fmod (c3BeatTimes.headD 0 -
      detect_downbeat_from_beat_strengths c3BeatTimes c3Strengths c3Bass c3Rms 120 0)
      (4 * (60 / 120)) = 1/2 ∧
    ¬(fmod (c3BeatTimes.headD 0 -
        detect_downbeat_from_beat_strengths c3BeatTimes c3Strengths c3Bass c3Rms 120 0)
        (4 * (60 / 120)) ≤ 1/8) := by decide

/-- C5: chart generation is a pure function of the analysis results, the
seed-derived random stream and the selected difficulties; two independent
runs from the same seed (hence the same stream and counter) produce
identical charts for every difficulty. -/
theorem c5_generation_deterministic (az : Analyzer) (u1 u2 : ℕ → ℚ) (n1 n2 : ℕ)
    (selected : List DiffName) (hu : u1 = u2) (hn : n1 = n2) :
    generate_all az u1 n1 selected = generate_all az u2 n2 selected := by
  rw [hu, hn]

theorem c5_generation_deterministic_witness :
    generate_all cAz cU 0 [DiffName.Beginner, DiffName.Challenge] =
      generate_all cAz cU 0 [DiffName.Beginner, DiffName.Challenge] :=
  c5_generation_deterministic cAz cU cU 0 0 [DiffName.Beginner, DiffName.Challenge] rfl rfl

theorem pick_arrow_flag (az : Analyzer) (u : ℕ → ℚ) (n : ℕ) (t : ℚ)
    (prev : List ℕ) (l s : ℕ) (ub : Bool) (bs : ℕ) (ot jp mn : ℚ) (jo ap : Bool) :
    pick_arrow az u n t prev ⟨l, s, ub, bs, ot, jp, mn, jo, ap⟩ =
      pick_arrow az u n t prev ⟨l, s, false, bs, ot, jp, mn, jo, ap⟩ := rfl

theorem raw_grid_flag (az : Analyzer) (spr offset : ℚ) (l s : ℕ) (ub : Bool)
    (bs : ℕ) (ot jp mn : ℚ) (jo ap : Bool) :
    raw_grid az ⟨l, s, ub, bs, ot, jp, mn, jo, ap⟩ spr offset =
      raw_grid az ⟨l, s, false, bs, ot, jp, mn, jo, ap⟩ spr offset := rfl

theorem postprocess_flag (az : Analyzer) (u : ℕ → ℚ) (subdiv : ℕ)
    (measures : List (List Row)) (n : ℕ) (l s : ℕ) (ub : Bool) (bs : ℕ)
    (ot jp mn : ℚ) (jo ap : Bool) :
    postprocess az u subdiv ⟨l, s, ub, bs, ot, jp, mn, jo, ap⟩ measures n =
      postprocess az u subdiv ⟨l, s, false, bs, ot, jp, mn, jo, ap⟩ measures n := rfl

theorem build_rows_flag (az : Analyzer) (u : ℕ → ℚ) (grid : Finset ℕ)
    (spr offset : ℚ) (l s : ℕ) (ub : Bool) (bs : ℕ) (ot jp mn : ℚ) (jo ap : Bool) :
    ∀ (gis prev : List ℕ) (n : ℕ),
      build_rows az u ⟨l, s, ub, bs, ot, jp, mn, jo, ap⟩ grid spr offset gis prev n =
        build_rows az u ⟨l, s, false, bs, ot, jp, mn, jo, ap⟩ grid spr offset gis prev n := by
  intro gis
  induction gis with
  | nil => intro prev n; rfl
  | cons gi rest ih =>
    intro prev n
    simp only [build_rows, pick_arrow_flag, ih]

/-- C9: `use_beats_only` is never read by grid construction, arrow
assignment or post-processing, so two configurations differing only in that
field generate identical charts — onsets above the strength threshold
contribute eligible rows even when the flag is set. -/
theorem c9_use_beats_only_unused (az : Analyzer) (u : ℕ → ℚ) (n : ℕ)
    (cfg : Config) (b1 b2 : Bool) (name : DiffName) :
    generate_chart_cfg az u n { cfg with use_beats_only := b1 } name =
      generate_chart_cfg az u n { cfg with use_beats_only := b2 } name := by
  cases cfg
  unfold generate_chart_cfg
  simp only [raw_grid_flag, build_rows_flag, postprocess_flag]

/-- C1: for every analysis result, stream and configuration, the number of
rows with at least one active lane in the final chart is at most
`int(duration * max_nps)`: the density cap bounds the eligible-row set,
each eligible row yields at most one active row, and no post-processing
rule activates a previously empty row. The chart's stored note count is
exactly that number of active rows. -/
theorem c1_density_cap (az : Analyzer) (u : ℕ → ℚ) (n : ℕ) (cfg : Config)
    (name : DiffName) (ch : Chart) (n' : ℕ)
    (h : generate_chart_cfg az u n cfg name = some (ch, n')) :
    ch.note_count = active_row_count ch.measures ∧
      active_row_count ch.measures ≤ (pyInt (az.duration * cfg.max_nps)).toNat := by
  unfold generate_chart_cfg at h
  by_cases h0 : az.bpm = 0 ∨ cfg.subdiv = 0 ∨ cfg.beat_skip = 0
  · rw [if_pos h0] at h
    exact Option.noConfusion h
  rw [if_neg h0] at h
  dsimp only at h
  have hsub : cfg.subdiv ≠ 0 := by
    intro hx
    exact h0 (Or.inr (Or.inl hx))
  cases hcap : capped_grid az.duration cfg.max_nps
      (raw_grid az cfg (4 * 60 / az.bpm / (cfg.subdiv : ℚ)) az.first_downbeat) with
  | none =>
    rw [hcap] at h
    exact Option.noConfusion h
  | some grid =>
    rw [hcap] at h
    simp only [Option.some.injEq, Prod.mk.injEq] at h
    obtain ⟨rfl, rfl⟩ := h
    refine ⟨rfl, ?_⟩
    refine le_trans (sublist_arc_le (trim_trailing_sublist _)) ?_
    refine le_trans (postprocess_arc_le _ _ _ _ _ _) ?_
    rw [arc_eq_flatten, chunk_flatten cfg.subdiv hsub _]
    refine le_trans (build_rows_count _ _ _ _ _ _ _ _ _) ?_
    refine le_trans (range_countP_le_card _ _) ?_
    exact capped_grid_card _ _ _ _ hcap

theorem c1_density_cap_witness :
    generate_chart_cfg cAz cU 0 (CONFIGS .Beginner) .Beginner = some (bChart, 2) ∧
    bChart.note_count = active_row_count bChart.measures ∧
      active_row_count bChart.measures ≤
        (pyInt (cAz.duration * (CONFIGS .Beginner).max_nps)).toNat :=
  ⟨by decide,
    c1_density_cap cAz cU 0 (CONFIGS .Beginner) .Beginner bChart 2 (by decide)⟩

/-- C6: a Beginner chart always has level 1 and no row with 2 or more
active lanes: `jump_prob = 0` short-circuits the jump draw of
`_pick_arrow`, the emphasis-jump rule is gated to levels ≥ 5, and every
other rule keeps rows at or below one note. -/
theorem c6_beginner_no_jumps (az : Analyzer) (u : ℕ → ℚ) (n : ℕ) (ch : Chart)
    (n' : ℕ) (h : generate_chart az u n DiffName.Beginner = some (ch, n')) :
    ch.level = 1 ∧ AllRowsLe 1 ch.measures := by
  unfold generate_chart at h
  unfold generate_chart_cfg at h
  by_cases h0 : az.bpm = 0 ∨ (CONFIGS .Beginner).subdiv = 0 ∨ (CONFIGS .Beginner).beat_skip = 0
  · rw [if_pos h0] at h
    exact Option.noConfusion h
  rw [if_neg h0] at h
  dsimp only at h
  cases hcap : capped_grid az.duration (CONFIGS .Beginner).max_nps
      (raw_grid az (CONFIGS .Beginner)
        (4 * 60 / az.bpm / ((CONFIGS .Beginner).subdiv : ℚ)) az.first_downbeat) with
  | none =>
    rw [hcap] at h
    exact Option.noConfusion h
  | some grid =>
    rw [hcap] at h
    simp only [Option.some.injEq, Prod.mk.injEq] at h
    obtain ⟨rfl, rfl⟩ := h
    refine ⟨rfl, ?_⟩
    unfold AllRowsLe
    intro ms hms r hr
    refine le_trans (countActive_le_sum r) ?_
    refine postprocess_sum1 _ _ _ _ _ _ (by decide) ?_ ms
      ((trim_trailing_sublist _).subset hms) r hr
    intro ms2 hms2 r2 hr2
    exact build_rows_sum _ _ _ _ _ _ 1
      (fun n t prev => pick_arrow_sum_le1 _ _ _ _ _ _ (by decide)) _ _ _ r2
      (chunk_mem _ (by decide) _ ms2 hms2 r2 hr2)

theorem c6_beginner_no_jumps_witness :
    generate_chart cAz cU 0 DiffName.Beginner = some (bChart, 2) ∧
    bChart.level = 1 ∧ AllRowsLe 1 bChart.measures :=
  ⟨by decide, c6_beginner_no_jumps cAz cU 0 bChart 2 (by decide)⟩

/-- C10: in every generated chart for every difficulty, every row has at
most 2 active lanes: arrow assignment activates at most two lanes, the
emphasis-jump rule only upgrades single-note rows, and every other rule
clears a row or rewrites it to a single lane. -/
theorem c10_rows_at_most_two (az : Analyzer) (u : ℕ → ℚ) (n : ℕ)
    (name : DiffName) (ch : Chart) (n' : ℕ)
    (h : generate_chart az u n name = some (ch, n')) :
    AllRowsLe 2 ch.measures := by
  unfold generate_chart at h
  unfold generate_chart_cfg at h
  by_cases h0 : az.bpm = 0 ∨ (CONFIGS name).subdiv = 0 ∨ (CONFIGS name).beat_skip = 0
  · rw [if_pos h0] at h
    exact Option.noConfusion h
  rw [if_neg h0] at h
  dsimp only at h
  have hsub : (CONFIGS name).subdiv ≠ 0 := fun hx => h0 (Or.inr (Or.inl hx))
  cases hcap : capped_grid az.duration (CONFIGS name).max_nps
      (raw_grid az (CONFIGS name)
        (4 * 60 / az.bpm / ((CONFIGS name).subdiv : ℚ)) az.first_downbeat) with
  | none =>
    rw [hcap] at h
    exact Option.noConfusion h
  | some grid =>
    rw [hcap] at h
    simp only [Option.some.injEq, Prod.mk.injEq] at h
    obtain ⟨rfl, rfl⟩ := h
    unfold AllRowsLe
    intro ms hms r hr
    refine le_trans (countActive_le_sum r) ?_
    refine postprocess_sum2 _ _ _ _ _ _ ?_ ms
      ((trim_trailing_sublist _).subset hms) r hr
    intro ms2 hms2 r2 hr2
    exact build_rows_sum _ _ _ _ _ _ 2
      (fun n t prev => pick_arrow_sum_le2 _ _ _ _ _ _) _ _ _ r2
      (chunk_mem _ hsub _ ms2 hms2 r2 hr2)

theorem c10_rows_at_most_two_witness :
    generate_chart cAz cU 0 DiffName.Challenge = some (chChart, 8) ∧
    AllRowsLe 2 chChart.measures :=
  ⟨by decide, c10_rows_at_most_two cAz cU 0 DiffName.Challenge chChart 8 (by decide)⟩

/-- C7: the jump-spacing rule. For level ≥ 9 the rule changes nothing.
For level < 9 (on well-formed charts: every measure has `subdiv` rows of 4
lanes, and the random stream draws from [0,1)) the retained jumps of the
output are at least 3 grid rows apart, and row by row the output either
keeps the input row or downgrades a jump (2 or more active lanes) to at
most a single lane drawn from that row's active lanes. -/
theorem c7_jump_spacing (subdiv level : ℕ) (measures : List (List Row))
    (u : ℕ → ℚ) (n : ℕ) :
    (9 ≤ level → (rule5 subdiv level measures u n).1 = measures) ∧
    (level < 9 →
      (∀ meas ∈ measures, meas.length = subdiv) →
      (∀ meas ∈ measures, ∀ row ∈ meas, row.length = 4) →
      (∀ i, 0 ≤ u i ∧ u i < 1) →
      JumpsSpaced (jump_indices subdiv (rule5 subdiv level measures u n).1) ∧
      Rule5Pointwise measures (rule5 subdiv level measures u n).1) := by
  constructor
  · intro h9
    exact rule5_go_id level h9 u subdiv measures 0 (-999) n
  · intro hlvl hU hR hu
    refine ⟨?_, rule5_go_pointwise level u hu subdiv measures 0 (-999) n hR⟩
    have h := rule5_go_spec level hlvl u subdiv measures 0 (-999) n hU
      (by push_cast; omega)
    exact h.2.2.1

theorem c7_jump_spacing_witness :
    JumpsSpaced (jump_indices 4
      (rule5 4 1 [[[1, 1, 0, 0], [1, 0, 1, 0], [0, 0, 0, 0], [0, 0, 0, 0]]]
        (fun _ => 0) 0).1) ∧
    Rule5Pointwise [[[1, 1, 0, 0], [1, 0, 1, 0], [0, 0, 0, 0], [0, 0, 0, 0]]]
      (rule5 4 1 [[[1, 1, 0, 0], [1, 0, 1, 0], [0, 0, 0, 0], [0, 0, 0, 0]]]
        (fun _ => 0) 0).1 :=
  (c7_jump_spacing 4 1 [[[1, 1, 0, 0], [1, 0, 1, 0], [0, 0, 0, 0], [0, 0, 0, 0]]]
      (fun _ => 0) 0).2 (by decide) (by decide) (by decide)
    (fun i => ⟨le_refl 0, by norm_num⟩)

end SMGen
